import Mathlib

/-!
# ankh / ankhnempem: chunked authenticated file encryption

A shallow embedding of the two programs of the repository:

* `src/ankh.c` (Variant R): one session nonce, incremented before every chunk, combined
  secretbox output per chunk;
* `src/ankhnempem.c` (Variant D): a fresh random nonce per chunk, detached tag, three fields
  per chunk record.

Files are byte lists.  The input stream carries the unread bytes and the end-of-file
indicator; reads never fail with an I/O error (`ferror` is always 0) and a read returns the
full requested count unless the end of the input is reached.  The libsodium primitives are
parameters (structure `Sodium`); what is assumed of them is stated as explicit hypotheses.
A process ending through `errx(1, ...)` keeps the bytes it has already written.
-/

namespace Ankh

/-! ## Bytes, streams, process results -/

/-- One `unsigned char`. -/
abbrev Byte := Fin 256

/-- A byte sequence: file contents, buffers. -/
abbrev Bytes := List Byte

/-- A fixed-size array `unsigned char x[n]` filled by the library. -/
abbrev Buf (n : Nat) := { b : Bytes // b.length = n }

/-- The macro `BUFSIZE` of both programs, `1024 * 1024`. -/
def BUFSIZE : Nat := 1024 * 1024

/-- Modelled from the spec: the tag length T of libsodium's secretbox (`sodium.h` is not
part of the repository); the spec's example and the claims fix it to 16. -/
def crypto_secretbox_MACBYTES : Nat := 16

/-- Modelled from the spec: the nonce length N of libsodium's secretbox; the spec's example
and the claims fix it to 24. -/
def crypto_secretbox_NONCEBYTES : Nat := 24

/-- Modelled from the spec: the key length of libsodium's secretbox (a fixed length; no
claim depends on its value). -/
def crypto_secretbox_KEYBYTES : Nat := 32

/-- Modelled from the spec: the salt length S, fixed by the KDF (no claim depends on its
value). -/
def crypto_pwhash_SALTBYTES : Nat := 16

/-- The width of `size_t` arithmetic: values are taken modulo `2 ^ 64`. -/
def SIZE_MOD : Nat := 2 ^ 64

/-- The sum `a + b` of two `size_t` values, wrapping around at `2 ^ 64`. -/
def size_add (a b : Nat) : Nat := if a + b < SIZE_MOD then a + b else a + b - SIZE_MOD

/-- The difference `a - b` of two `size_t` values, wrapping around below zero. -/
def size_sub (a b : Nat) : Nat := if b ≤ a then a - b else a + SIZE_MOD - b

abbrev Key := Buf crypto_secretbox_KEYBYTES
abbrev Nonce := Buf crypto_secretbox_NONCEBYTES
abbrev Mac := Buf crypto_secretbox_MACBYTES
abbrev Salt := Buf crypto_pwhash_SALTBYTES

/-- The diagnostics passed to `errx(1, ...)` in the two programs. -/
inductive Msg
  | errorReadingSalt          -- "error reading salt from %s"
  | errorWritingSalt          -- "error writing salt to %s"
  | unableToReadPassphrase    -- "unable to read passphrase"
  | pleaseProvidePassword     -- "please provide a password"
  | passwordsDontMatch        -- "passwords don't match"
  | cryptoPwhash              -- "crypto_pwhash error" / "crypto_pwhash failure"
  | invalidMessageData        -- "invalid message data"
  | errorWritingOutput        -- "error writing to output stream" / "failure writing to output stream"
  | errorReadingInput         -- "error reading from input stream" / "failure reading from input stream"
  | errorReadingNonce         -- "error reading nonce"
  | errorReadingMac           -- "error reading mac"
  | errorWritingNonce         -- "error writing nonce"
  | errorWritingMac           -- "error writing mac"
  deriving DecidableEq, Repr

/-- The error taxonomy of the specification (section 7). -/
inductive ErrorClass
  | WeakInput | PassphraseMismatch | DerivationFailure | TruncatedHeader
  | CorruptContainer | AuthenticationFailure | IOFailure
  deriving DecidableEq, Repr

/-- The class of the specification's taxonomy each diagnostic belongs to: a tag that does
not verify is `AuthenticationFailure`, a nonce or tag field that cannot be read in full is
`CorruptContainer`, a missing salt is `TruncatedHeader`. -/
def Msg.errorClass : Msg → ErrorClass
  | .errorReadingSalt => .TruncatedHeader
  | .errorWritingSalt => .IOFailure
  | .unableToReadPassphrase => .IOFailure
  | .pleaseProvidePassword => .WeakInput
  | .passwordsDontMatch => .PassphraseMismatch
  | .cryptoPwhash => .DerivationFailure
  | .invalidMessageData => .AuthenticationFailure
  | .errorWritingOutput => .IOFailure
  | .errorReadingInput => .IOFailure
  | .errorReadingNonce => .CorruptContainer
  | .errorReadingMac => .CorruptContainer
  | .errorWritingNonce => .IOFailure
  | .errorWritingMac => .IOFailure

/-- How the process ends: `exit(EXIT_SUCCESS)` or `errx(1, msg)`. -/
inductive Exit
  | success
  | errx (msg : Msg)
  deriving DecidableEq, Repr

/-- The result of a run: the bytes written to the output file and the way the process
ended. -/
structure Outcome where
  out : Bytes
  exit : Exit
  deriving DecidableEq, Repr

/-- An input stream: the unread bytes and the end-of-file indicator. -/
structure FILE where
  data : Bytes
  eof : Bool
  deriving DecidableEq, Repr

/-- The call `fread(ptr, size, nmemb, fp)`: the bytes stored, the number of complete items
read, and the stream afterwards.  When fewer than `size * nmemb` bytes are left they are all
consumed and the end-of-file indicator is set; a read that is satisfied in full leaves the
indicator as it was. -/
def fread (size nmemb : Nat) (fp : FILE) : Bytes × Nat × FILE :=
  if size = 0 ∨ nmemb = 0 then ([], 0, fp)
  else if size * nmemb ≤ fp.data.length then
    (fp.data.take (size * nmemb), nmemb, ⟨fp.data.drop (size * nmemb), fp.eof⟩)
  else (fp.data, fp.data.length / size, ⟨[], true⟩)

/-- The call `fwrite(ptr, size, nmemb, fp)` on an output file that accepts every write: the
number of items written and the file afterwards.  With `size = 0` or `nmemb = 0` nothing is
written and the call returns 0. -/
def fwrite (ptr : Bytes) (size nmemb : Nat) (fp : Bytes) : Nat × Bytes :=
  if size = 0 ∨ nmemb = 0 then (0, fp) else (nmemb, fp ++ ptr.take (size * nmemb))

/-- One pass through a loop body: continue with a new state or leave with a result. -/
inductive Step (σ ρ : Type)
  | next (s : σ)
  | halt (r : ρ)

/-- Runs a loop body at most `fuel` times; `none` when the fuel is used up. -/
def run {σ ρ : Type} (step : σ → Step σ ρ) : Nat → σ → Option ρ
  | 0, _ => none
  | fuel + 1, s =>
    match step s with
    | .next s1 => run step fuel s1
    | .halt r => some r

/-! ## libsodium -/

/-- The libsodium functions the programs call, as parameters.  `secretbox_open_easy` and
`secretbox_open_detached` return `none` for the return value -1 and `some m` for 0 with
plaintext `m` stored in the output buffer. -/
structure Sodium where
  secretbox_easy : Bytes → Bytes → Key → Bytes
  secretbox_open_easy : Bytes → Bytes → Key → Option Bytes
  secretbox_detached : Bytes → Bytes → Key → Bytes × Mac
  secretbox_open_detached : Bytes → Bytes → Bytes → Key → Option Bytes
  pwhash : Bytes → Bytes → Nat → Nat → Option Key
  OPSLIMIT_INTERACTIVE : Nat
  MEMLIMIT_INTERACTIVE : Nat

/-- Modelled from the spec: libsodium's `sodium_increment` (not part of the repository) adds
one to the buffer read as a little-endian number, wrapping around: the carry loop
`c += n[i]; n[i] = (unsigned char) c; c >>= 8` started with `c = 1`. -/
def sodium_increment_carry : Nat → Bytes → Bytes
  | _, [] => []
  | c, b :: bs => Fin.ofNat (c + b.val) :: sodium_increment_carry ((c + b.val) / 256) bs

/-- Modelled from the spec: `sodium_increment(n, nlen)` over the whole buffer. -/
def sodium_increment (n : Bytes) : Bytes := sodium_increment_carry 1 n

/-- The value of a buffer read as a little-endian number. -/
def leValue : Bytes → Nat
  | [] => 0
  | b :: bs => b.val + 256 * leValue bs

/-- What the terminal supplies to `kdf`: whether standard input is a terminal, and the
results of the two `readpassphrase` calls (`none` when the call fails). -/
structure Terminal where
  isatty : Bool
  pass : Option Bytes
  pass2 : Option Bytes

/-- The function `kdf` of both programs: reads the passphrase, rejects an empty one, asks for
confirmation when `confirm` is set and the passphrase does not come from standard input, and
derives the key with `crypto_pwhash`. -/
def kdf (sb : Sodium) (t : Terminal) (opslimit memlimit : Nat) (salt : Bytes)
    (allowstdin confirm : Bool) : Except Msg Key :=
  let rpp_stdin := allowstdin && !t.isatty
  match t.pass with
  | none => .error .unableToReadPassphrase
  | some pass =>
    if pass.length = 0 then .error .pleaseProvidePassword
    else
      let confirmed : Except Msg Unit :=
        if confirm && !rpp_stdin then
          match t.pass2 with
          | none => .error .unableToReadPassphrase
          | some pass2 => if pass ≠ pass2 then .error .passwordsDontMatch else .ok ()
        else .ok ()
      match confirmed with
      | .error e => .error e
      | .ok _ =>
        match sb.pwhash pass salt opslimit memlimit with
        | none => .error .cryptoPwhash
        | some key => .ok key

/-! ## Variant R: `src/ankh.c` -/

/-- The structure `cipher_info`: input stream, output file, mode and key. -/
structure cipher_info where
  fin : FILE
  fout : Bytes
  enc : Bool
  key : Key

/-- The local state of `cipher` at the loop head: the streams, the nonce buffer `n`, and a
log of the nonces handed to the secretbox so far (the log is not program state; it records
the calls). -/
structure CipherState where
  fin : FILE
  fout : Bytes
  n : Bytes
  used : List Bytes

/-- The result of `cipher` together with the log of nonces used. -/
structure Session where
  outcome : Outcome
  nonces : List Bytes

/-- One evaluation of the loop condition and body of `cipher`. -/
def cipher_step (sb : Sodium) (enc : Bool) (key : Key) (rlen : Nat) (s : CipherState) :
    Step CipherState Session :=
  match fread 1 rlen s.fin with
  | (buf, bytes, fin1) =>
    if bytes = 0 then .halt ⟨⟨s.fout, .success⟩, s.used⟩
    else
      let n := sodium_increment s.n
      if enc then
        let c := sb.secretbox_easy buf n key
        let wlen := size_add bytes crypto_secretbox_MACBYTES
        match fwrite c wlen 1 s.fout with
        | (w, fout1) =>
          if w = 0 then .halt ⟨⟨fout1, .errx .errorWritingOutput⟩, s.used ++ [n]⟩
          else .next ⟨fin1, fout1, n, s.used ++ [n]⟩
      else
        match sb.secretbox_open_easy buf n key with
        | none => .halt ⟨⟨s.fout, .errx .invalidMessageData⟩, s.used ++ [n]⟩
        | some m =>
          let wlen := size_sub bytes crypto_secretbox_MACBYTES
          match fwrite m wlen 1 s.fout with
          | (w, fout1) =>
            if w = 0 then .halt ⟨⟨fout1, .errx .errorWritingOutput⟩, s.used ++ [n]⟩
            else .next ⟨fin1, fout1, n, s.used ++ [n]⟩

/-- The function `cipher` with the log of nonces: `rlen` is `bufsize - MACBYTES` when
encrypting and `bufsize` when decrypting, the nonce starts as zero bytes.  Every pass of the
loop that continues consumes input, so the fuel given is enough. -/
def cipher_session (sb : Sodium) (ci : cipher_info) : Option Session :=
  let bufsize := BUFSIZE
  let rlen := if ci.enc then size_sub bufsize crypto_secretbox_MACBYTES else bufsize
  let n : Bytes := List.replicate crypto_secretbox_NONCEBYTES 0
  run (cipher_step sb ci.enc ci.key rlen) (ci.fin.data.length + 1) ⟨ci.fin, ci.fout, n, []⟩

/-- The function `cipher`: what is written and how the process goes on. -/
def cipher (sb : Sodium) (ci : cipher_info) : Option Outcome :=
  (cipher_session sb ci).map Session.outcome

/-- The function `ankh`: salt (fresh when encrypting, read from the input when decrypting),
key derivation, then the output file is opened, the salt written when encrypting, and
`cipher` runs.  Before the output file is opened nothing is written. -/
def ankh (sb : Sodium) (t : Terminal) (opslimit memlimit : Nat) (rnd : Salt)
    (infile : Bytes) (enc : Bool) : Option Outcome :=
  let fin0 : FILE := ⟨infile, false⟩
  let salted : Option (Bytes × FILE) :=
    if enc then some (rnd.val, fin0)
    else
      match fread crypto_pwhash_SALTBYTES 1 fin0 with
      | (salt, r, fin1) => if r ≠ 1 then none else some (salt, fin1)
  match salted with
  | none => some ⟨[], .errx .errorReadingSalt⟩
  | some (salt, fin1) =>
    match kdf sb t opslimit memlimit salt true enc with
    | .error e => some ⟨[], .errx e⟩
    | .ok key =>
      if enc then
        match fwrite salt crypto_pwhash_SALTBYTES 1 [] with
        | (w, fout1) =>
          if w ≠ 1 then some ⟨fout1, .errx .errorWritingSalt⟩
          else cipher sb ⟨fin1, fout1, enc, key⟩
      else cipher sb ⟨fin1, [], enc, key⟩

/-! ## Variant D: `src/ankhnempem.c` -/

/-- The local state of `encrypt` at the loop head: the streams and the number of nonces
drawn from the random source so far. -/
structure EncState where
  fin : FILE
  fout : Bytes
  drawn : Nat

/-- One pass through the body of the `do ... while (1)` loop of `encrypt`; `rnd i` is the
result of the `i`-th call of `randombytes_buf(n, sizeof(n))`. -/
def encrypt_step (sb : Sodium) (rnd : Nat → Nonce) (key : Key) (mlen : Nat) (s : EncState) :
    Step EncState Outcome :=
  match fread 1 mlen s.fin with
  | (m, r, fin1) =>
    if r = 0 then .halt ⟨s.fout, .success⟩
    else
      let n := (rnd s.drawn).val
      match sb.secretbox_detached m n key with
      | (c, mac) =>
        match fwrite n crypto_secretbox_NONCEBYTES 1 s.fout with
        | (w1, fout1) =>
          if w1 = 0 then .halt ⟨fout1, .errx .errorWritingNonce⟩
          else
            match fwrite mac.val crypto_secretbox_MACBYTES 1 fout1 with
            | (w2, fout2) =>
              if w2 = 0 then .halt ⟨fout2, .errx .errorWritingMac⟩
              else
                match fwrite c r 1 fout2 with
                | (w3, fout3) =>
                  if w3 = 0 then .halt ⟨fout3, .errx .errorWritingOutput⟩
                  else .next ⟨fin1, fout3, s.drawn + 1⟩

/-- The function `encrypt`. -/
def encrypt (sb : Sodium) (rnd : Nat → Nonce) (ci : cipher_info) : Option Outcome :=
  let mlen := BUFSIZE
  run (encrypt_step sb rnd ci.key mlen) (ci.fin.data.length + 1) ⟨ci.fin, ci.fout, 0⟩

/-- The local state of `decrypt` at the loop head. -/
structure DecState where
  fin : FILE
  fout : Bytes

/-- One pass through the body of the `do ... while (!feof(ci->fin))` loop of `decrypt`,
followed by the loop condition. -/
def decrypt_step (sb : Sodium) (key : Key) (clen : Nat) (s : DecState) :
    Step DecState Outcome :=
  match fread crypto_secretbox_NONCEBYTES 1 s.fin with
  | (n, rn, fin1) =>
    if rn = 0 then .halt ⟨s.fout, .errx .errorReadingNonce⟩
    else
      match fread crypto_secretbox_MACBYTES 1 fin1 with
      | (mac, rm, fin2) =>
        if rm = 0 then .halt ⟨s.fout, .errx .errorReadingMac⟩
        else
          match fread 1 clen fin2 with
          | (c, r, fin3) =>
            if r = 0 then .halt ⟨s.fout, .success⟩
            else
              match sb.secretbox_open_detached c mac n key with
              | none => .halt ⟨s.fout, .errx .invalidMessageData⟩
              | some m =>
                match fwrite m r 1 s.fout with
                | (w, fout1) =>
                  if w = 0 then .halt ⟨fout1, .errx .errorWritingOutput⟩
                  else if fin3.eof then .halt ⟨fout1, .success⟩
                  else .next ⟨fin3, fout1⟩

/-- The function `decrypt`. -/
def decrypt (sb : Sodium) (ci : cipher_info) : Option Outcome :=
  let clen := BUFSIZE
  run (decrypt_step sb ci.key clen) (ci.fin.data.length + 1) ⟨ci.fin, ci.fout⟩

/-- The function `ankhnempem`: both files are opened, the salt is drawn and written
(encrypting) or read (decrypting), the key is derived with the interactive limits, and
`encrypt` or `decrypt` runs. -/
def ankhnempem (sb : Sodium) (t : Terminal) (rndSalt : Salt) (rnd : Nat → Nonce)
    (infile : Bytes) (enc : Bool) : Option Outcome :=
  let fin0 : FILE := ⟨infile, false⟩
  let salted : Except Outcome (Bytes × FILE × Bytes) :=
    if enc then
      match fwrite rndSalt.val crypto_pwhash_SALTBYTES 1 [] with
      | (w, fout1) =>
        if w ≠ 1 then .error ⟨fout1, .errx .errorWritingSalt⟩
        else .ok (rndSalt.val, fin0, fout1)
    else
      match fread crypto_pwhash_SALTBYTES 1 fin0 with
      | (salt, r, fin1) =>
        if r ≠ 1 then .error ⟨[], .errx .errorReadingSalt⟩ else .ok (salt, fin1, [])
  match salted with
  | .error o => some o
  | .ok (salt, fin1, fout1) =>
    match kdf sb t sb.OPSLIMIT_INTERACTIVE sb.MEMLIMIT_INTERACTIVE salt true enc with
    | .error e => some ⟨fout1, .errx e⟩
    | .ok key =>
      if enc then encrypt sb rnd ⟨fin1, fout1, enc, key⟩
      else decrypt sb ⟨fin1, fout1, enc, key⟩

/-! ## Chunks and records -/

/-- The number of chunks a stream of `len` bytes is read in, `ceil(len / r)`. -/
def nchunks (r len : Nat) : Nat := (len + r - 1) / r

/-- The `i`-th chunk of `r` bytes of `p`. -/
def chunk (r : Nat) (p : Bytes) (i : Nat) : Bytes := (p.drop (i * r)).take r

/-- The chunks of `p`, in order. -/
def chunks (r : Nat) (p : Bytes) : List Bytes :=
  (List.range (nchunks r p.length)).map (chunk r p)

/-- The nonce of Variant R for chunk `i`: the zero nonce incremented `i + 1` times. -/
def nonceR (i : Nat) : Bytes :=
  sodium_increment^[i + 1] (List.replicate crypto_secretbox_NONCEBYTES 0)

/-- The plaintext bytes per chunk when Variant R encrypts, 1 MiB - 16. -/
def RLEN : Nat := BUFSIZE - crypto_secretbox_MACBYTES

/-- Record `i` of a Variant R container: the combined secretbox output for a chunk. -/
def recordR (sb : Sodium) (key : Key) (i : Nat) (m : Bytes) : Bytes :=
  sb.secretbox_easy m (nonceR i) key

/-- The chunk records of Variant R for plaintext `p`. -/
def recordsR (sb : Sodium) (key : Key) (p : Bytes) : List Bytes :=
  (List.range (nchunks RLEN p.length)).map (fun i => recordR sb key i (chunk RLEN p i))

/-- A chunk record of Variant D: nonce, detached tag, ciphertext. -/
def recordD (sb : Sodium) (key : Key) (n : Nonce) (m : Bytes) : Bytes :=
  n.val ++ (sb.secretbox_detached m n.val key).2.val ++ (sb.secretbox_detached m n.val key).1

/-- The chunk records of Variant D for plaintext `p` with nonces `rnd 0, rnd 1, ...`. -/
def recordsD (sb : Sodium) (key : Key) (rnd : Nat → Nonce) (p : Bytes) : List Bytes :=
  (List.range (nchunks BUFSIZE p.length)).map
    (fun i => recordD sb key (rnd i) (chunk BUFSIZE p i))

/-! ## What is assumed of the secretbox -/

/-- The combined secretbox: the sealed output is 16 bytes longer than the message, opening
a sealed message with the same nonce and key gives the message back. -/
structure Sodium.EasyOK (sb : Sodium) : Prop where
  seal_length : ∀ m n k, (sb.secretbox_easy m n k).length = m.length + crypto_secretbox_MACBYTES
  open_seal : ∀ m n k, sb.secretbox_open_easy (sb.secretbox_easy m n k) n k = some m

/-- The combined secretbox only opens inputs that hold a tag, and the plaintext is 16 bytes
shorter than the input. -/
def Sodium.OpenEasyLength (sb : Sodium) : Prop :=
  ∀ c n k m, sb.secretbox_open_easy c n k = some m →
    c.length = m.length + crypto_secretbox_MACBYTES

/-- The detached secretbox: the ciphertext is as long as the message, opening it with its
tag, nonce and key gives the message back. -/
structure Sodium.DetachedOK (sb : Sodium) : Prop where
  seal_length : ∀ m n k, (sb.secretbox_detached m n k).1.length = m.length
  open_seal : ∀ m n k, sb.secretbox_open_detached (sb.secretbox_detached m n k).1
    (sb.secretbox_detached m n k).2.val n k = some m

/-- The detached secretbox returns a plaintext as long as the ciphertext. -/
def Sodium.OpenDetachedLength (sb : Sodium) : Prop :=
  ∀ c mac n k m, sb.secretbox_open_detached c mac n k = some m → m.length = c.length

/-! ## A small secretbox to run the programs on -/

/-- The sum of all bytes of a message, a nonce and a key. -/
def toyDigest (m n : Bytes) (k : Key) : Byte :=
  (m ++ n ++ k.val).foldl (fun a b => a + b) 0

/-- A 16-byte tag: the digest repeated. -/
def toyTag (m n : Bytes) (k : Key) : Mac :=
  ⟨List.replicate crypto_secretbox_MACBYTES (toyDigest m n k), by simp⟩

/-- A secretbox that keeps the message in the clear and tags it with `toyTag`; the combined
form puts the tag first, as libsodium does. -/
def toySodium : Sodium where
  secretbox_easy m n k := (toyTag m n k).val ++ m
  secretbox_open_easy c n k :=
    if crypto_secretbox_MACBYTES ≤ c.length ∧
        c.take crypto_secretbox_MACBYTES = (toyTag (c.drop crypto_secretbox_MACBYTES) n k).val
    then some (c.drop crypto_secretbox_MACBYTES) else none
  secretbox_detached m n k := (m, toyTag m n k)
  secretbox_open_detached c mac n k := if mac = (toyTag c n k).val then some c else none
  pwhash pass salt _ _ :=
    some ⟨List.replicate crypto_secretbox_KEYBYTES ((pass ++ salt).foldl (fun a b => a + b) 0),
      by simp⟩
  OPSLIMIT_INTERACTIVE := 2
  MEMLIMIT_INTERACTIVE := 67108864

/-- A key of 32 zero bytes. -/
def zeroKey : Key := ⟨List.replicate crypto_secretbox_KEYBYTES 0, by simp⟩

/-- A salt of 16 zero bytes. -/
def zeroSalt : Salt := ⟨List.replicate crypto_pwhash_SALTBYTES 0, by simp⟩

/-- A random source that returns 24 times the byte `i` at the `i`-th draw. -/
def countNonce (i : Nat) : Nonce :=
  ⟨List.replicate crypto_secretbox_NONCEBYTES (Fin.ofNat i), by simp⟩

/-- A terminal on which the passphrase `[1]` is typed twice. -/
def toyTerminal : Terminal := ⟨true, some [1], some [1]⟩

/-- The key the small `pwhash` derives from the passphrase `[1]` and the zero salt. -/
def toyKey : Key := ⟨List.replicate crypto_secretbox_KEYBYTES 1, by simp⟩

/-- Sixteen bytes that are not all equal, so they are the tag of no message under the small
secretbox. -/
def badMac : Bytes := 0 :: List.replicate 15 1

/-! ## Auxiliary notions for the proofs -/

/-- A loop started in state `s` leaves with result `r` after some number of passes. -/
def Reaches {σ ρ : Type} (step : σ → Step σ ρ) (s : σ) (r : ρ) : Prop :=
  ∃ fuel, run step fuel s = some r

/-- The nonce buffer of `cipher` after `i` chunks. -/
def nonceState (i : Nat) : Bytes :=
  sodium_increment^[i] (List.replicate crypto_secretbox_NONCEBYTES 0)

/-- The records of Variant R for the chunks of `p`, numbered from `o`. -/
def recordsRFrom (sb : Sodium) (key : Key) (o : Nat) (p : Bytes) : List Bytes :=
  (List.range (nchunks RLEN p.length)).map (fun i => recordR sb key (o + i) (chunk RLEN p i))

/-- The records of Variant D for the chunks of `p`, with nonces `rnd o, rnd (o + 1), ...`. -/
def recordsDFrom (sb : Sodium) (key : Key) (rnd : Nat → Nonce) (o : Nat) (p : Bytes) :
    List Bytes :=
  (List.range (nchunks BUFSIZE p.length)).map
    (fun i => recordD sb key (rnd (o + i)) (chunk BUFSIZE p i))

/-- The three fields of a chunk record of Variant D as they are found in a container. -/
structure RecD where
  n : Bytes
  mac : Bytes
  c : Bytes

/-- The bytes of a record: nonce, tag, ciphertext. -/
def RecD.bytes (r : RecD) : Bytes := r.n ++ r.mac ++ r.c

/-- A record with a whole nonce, a whole tag and a full 1 MiB ciphertext that opens to `m`
under `key`. -/
def RecD.OpensFull (sb : Sodium) (key : Key) (r : RecD) (m : Bytes) : Prop :=
  r.n.length = crypto_secretbox_NONCEBYTES ∧ r.mac.length = crypto_secretbox_MACBYTES ∧
    r.c.length = BUFSIZE ∧ sb.secretbox_open_detached r.c r.mac r.n key = some m

/-- A Variant R container under the small secretbox: one full record followed by one stray
byte. -/
def witnessContainerR : Bytes := recordR toySodium zeroKey 0 (List.replicate RLEN 7) ++ [0]

/-- A full Variant D record under the small secretbox: nonce `countNonce 0`, the tag of 1 MiB
of the byte 7, and these bytes. -/
def witnessRecordD : RecD :=
  ⟨(countNonce 0).val, (toyTag (List.replicate BUFSIZE 7) (countNonce 0).val zeroKey).val,
    List.replicate BUFSIZE 7⟩

/-! ## Loops -/

theorem run_next {σ ρ : Type} {step : σ → Step σ ρ} {s s1 : σ} (h : step s = .next s1)
    (fuel : Nat) : run step (fuel + 1) s = run step fuel s1 := by
  simp [run, h]

theorem run_halt {σ ρ : Type} {step : σ → Step σ ρ} {s : σ} {r : ρ} (h : step s = .halt r)
    (fuel : Nat) : run step (fuel + 1) s = some r := by
  simp [run, h]

theorem Reaches.of_halt {σ ρ : Type} {step : σ → Step σ ρ} {s : σ} {r : ρ}
    (h : step s = .halt r) : Reaches step s r :=
  ⟨1, run_halt h 0⟩

theorem Reaches.of_next {σ ρ : Type} {step : σ → Step σ ρ} {s s1 : σ} {r : ρ}
    (h : step s = .next s1) (h1 : Reaches step s1 r) : Reaches step s r := by
  obtain ⟨fuel, hf⟩ := h1
  exact ⟨fuel + 1, by rw [run_next h, hf]⟩

/-- With a measure that every continuing pass decreases, fuel above the measure is enough:
the run returns the result the loop reaches. -/
theorem run_eq_of_reaches {σ ρ : Type} {step : σ → Step σ ρ} (μ : σ → Nat)
    (hdec : ∀ s s1, step s = .next s1 → μ s1 < μ s) :
    ∀ (fuel : Nat) (s : σ) (r : ρ), μ s < fuel → Reaches step s r → run step fuel s = some r := by
  intro fuel
  induction fuel with
  | zero => intro s r h; omega
  | succ k ih =>
    intro s r hμ ⟨j, hj⟩
    cases j with
    | zero => simp [run] at hj
    | succ j =>
      cases hs : step s with
      | halt r1 =>
        rw [run_halt hs] at hj
        rw [run_halt hs, hj]
      | next s1 =>
        rw [run_next hs] at hj
        rw [run_next hs]
        have := hdec s s1 hs
        exact ih s1 r (by omega) ⟨j, hj⟩

/-- With a decreasing measure and fuel above it the run returns a result. -/
theorem run_total {σ ρ : Type} {step : σ → Step σ ρ} (μ : σ → Nat)
    (hdec : ∀ s s1, step s = .next s1 → μ s1 < μ s) :
    ∀ (fuel : Nat) (s : σ), μ s < fuel → ∃ r, run step fuel s = some r := by
  intro fuel
  induction fuel with
  | zero => intro s h; omega
  | succ k ih =>
    intro s hμ
    cases hs : step s with
    | halt r1 => exact ⟨r1, run_halt hs k⟩
    | next s1 =>
      have := hdec s s1 hs
      obtain ⟨r, hr⟩ := ih s1 (by omega)
      exact ⟨r, by rw [run_next hs, hr]⟩

/-- An invariant of the loop states gives a property of the result. -/
theorem run_invariant {σ ρ : Type} {step : σ → Step σ ρ} (I : σ → Prop) (Q : ρ → Prop)
    (hnext : ∀ s s1, I s → step s = .next s1 → I s1)
    (hhalt : ∀ s r, I s → step s = .halt r → Q r) :
    ∀ (fuel : Nat) (s : σ) (r : ρ), I s → run step fuel s = some r → Q r := by
  intro fuel
  induction fuel with
  | zero => intro s r _ h; simp [run] at h
  | succ k ih =>
    intro s r hI h
    cases hs : step s with
    | halt r1 =>
      rw [run_halt hs] at h
      have hr : r1 = r := Option.some.inj h
      exact hr ▸ hhalt s r1 hI hs
    | next s1 =>
      rw [run_next hs] at h
      exact ih s1 r (hnext s s1 hI hs) h

/-! ## Streams -/

theorem fread_one {r : Nat} (hr : r ≠ 0) (d : Bytes) (e : Bool) :
    fread 1 r ⟨d, e⟩ = (d.take r, min r d.length, ⟨d.drop r, e || decide (d.length < r)⟩) := by
  unfold fread
  by_cases h : r ≤ d.length
  · simp [hr, h, Nat.not_lt.mpr h]
  · have h1 : d.length < r := Nat.lt_of_not_le h
    simp [hr, h, h1, List.take_of_length_le (Nat.le_of_lt h1),
      List.drop_of_length_le (Nat.le_of_lt h1), Nat.min_eq_right (Nat.le_of_lt h1)]

theorem fread_item_full {sz : Nat} (hsz : sz ≠ 0) (d : Bytes) (e : Bool) (h : sz ≤ d.length) :
    fread sz 1 ⟨d, e⟩ = (d.take sz, 1, ⟨d.drop sz, e⟩) := by
  simp [fread, hsz, h]

theorem fread_item_short {sz : Nat} (d : Bytes) (e : Bool) (h : d.length < sz) :
    fread sz 1 ⟨d, e⟩ = (d, 0, ⟨[], true⟩) := by
  have hsz : sz ≠ 0 := by omega
  simp [fread, hsz, Nat.not_le.mpr h, Nat.div_eq_of_lt h]

theorem fwrite_one {sz : Nat} (hsz : sz ≠ 0) (b out : Bytes) :
    fwrite b sz 1 out = (1, out ++ b.take sz) := by
  simp [fwrite, hsz]

/-! ## Chunks -/

theorem range_map_succ {α : Type} (f : Nat → α) (k : Nat) :
    (List.range (k + 1)).map f = f 0 :: (List.range k).map (fun j => f (j + 1)) := by
  rw [List.range_succ_eq_map, List.map_cons, List.map_map]
  rfl

theorem sub_mod_self {a b : Nat} (h : b ≤ a) : (a - b) % b = a % b := by
  obtain ⟨c, rfl⟩ := Nat.exists_eq_add_of_le h
  rw [Nat.add_sub_cancel_left, Nat.add_mod_left]

theorem nchunks_zero {r : Nat} (hr : 0 < r) : nchunks r 0 = 0 := by
  unfold nchunks
  exact Nat.div_eq_of_lt (by omega)

theorem nchunks_pos {r len : Nat} (hr : 0 < r) (hl : 0 < len) :
    nchunks r len = nchunks r (len - r) + 1 := by
  unfold nchunks
  by_cases h : r ≤ len
  · have : len + r - 1 = (len - r + r - 1) + r := by omega
    rw [this, Nat.add_div_right _ hr]
  · have h0 : len - r = 0 := by omega
    rw [h0, Nat.zero_add, Nat.div_eq_of_lt (show r - 1 < r by omega)]
    have : len + r - 1 = (len - 1) + r := by omega
    rw [this, Nat.add_div_right _ hr, Nat.div_eq_of_lt (by omega)]

theorem nchunks_succ_full {r : Nat} (hr : 0 < r) : nchunks r (r + 1) = 2 := by
  have e : r + 1 - r = 1 := by omega
  rw [nchunks_pos hr (Nat.succ_pos r), e, nchunks_pos hr Nat.one_pos,
    Nat.sub_eq_zero_of_le hr, nchunks_zero hr]

theorem nchunks_two_full_one {r : Nat} (hr : 0 < r) : nchunks r (r + (r + 1)) = 3 := by
  rw [nchunks_pos hr (Nat.lt_of_lt_of_le hr (Nat.le_add_right _ _)),
    Nat.add_sub_cancel_left, nchunks_succ_full hr]

theorem mod_two_full_one {r : Nat} (hr : 1 < r) (h : (r + (r + 1)) % r = 0) : False := by
  rw [Nat.add_mod_left, Nat.add_mod_left, Nat.mod_eq_of_lt hr] at h
  exact absurd h (by decide)

theorem nchunks_eq_zero {r len : Nat} (hr : 0 < r) (h : nchunks r len = 0) : len = 0 := by
  by_contra hne
  rw [nchunks_pos hr (Nat.pos_of_ne_zero hne)] at h
  omega

theorem lt_of_lt_nchunks {r len i : Nat} (hr : 0 < r) (h : i < nchunks r len) :
    i * r < len := by
  unfold nchunks at h
  by_contra hc
  have h1 : len + r - 1 < (i + 1) * r := by
    have : (i + 1) * r = i * r + r := by ring
    omega
  have := (Nat.div_lt_iff_lt_mul hr).mpr h1
  omega

theorem chunk_zero (r : Nat) (p : Bytes) : chunk r p 0 = p.take r := by
  simp [chunk]

theorem chunk_succ (r : Nat) (p : Bytes) (j : Nat) :
    chunk r p (j + 1) = chunk r (p.drop r) j := by
  simp only [chunk, List.drop_drop]
  congr 2
  ring

theorem chunk_length_le (r : Nat) (p : Bytes) (j : Nat) : (chunk r p j).length ≤ r := by
  simp [chunk]

theorem chunk_length_full {r : Nat} {p : Bytes} {j : Nat} (h : (j + 1) * r ≤ p.length) :
    (chunk r p j).length = r := by
  have : (j + 1) * r = j * r + r := by ring
  simp [chunk]
  omega

theorem chunk_length_pos {r : Nat} {p : Bytes} {j : Nat} (hr : 0 < r)
    (h : j < nchunks r p.length) : 0 < (chunk r p j).length := by
  have := lt_of_lt_nchunks hr h
  simp [chunk]
  omega

theorem chunks_flatten {r : Nat} (hr : 0 < r) :
    ∀ (k : Nat) (p : Bytes), nchunks r p.length = k → (chunks r p).flatten = p := by
  intro k
  induction k with
  | zero =>
    intro p h
    have := List.length_eq_zero.mp (nchunks_eq_zero hr h)
    subst this
    simp [chunks, nchunks_zero hr]
  | succ k ih =>
    intro p h
    have hpos : 0 < p.length := by
      by_contra hc
      have h0 : p.length = 0 := by omega
      rw [h0, nchunks_zero hr] at h
      omega
    have hk : nchunks r (p.drop r).length = k := by
      have := nchunks_pos hr hpos
      simp only [List.length_drop]
      omega
    have hrec := ih (p.drop r) hk
    simp only [chunks, h, range_map_succ, List.flatten_cons, chunk_zero, chunk_succ]
    simp only [chunks, hk] at hrec
    rw [hrec, List.take_append_drop]

/-! ## Variant R: the loop of `cipher` -/

theorem BUFSIZE_eq : BUFSIZE = 1048576 := by norm_num [BUFSIZE]

theorem RLEN_eq : RLEN = 1048560 := by
  norm_num [RLEN, BUFSIZE, crypto_secretbox_MACBYTES]

theorem RLEN_pos : 0 < RLEN := by
  rw [RLEN_eq]
  omega

theorem RLEN_add : RLEN + crypto_secretbox_MACBYTES = BUFSIZE := by
  rw [RLEN_eq, BUFSIZE_eq, crypto_secretbox_MACBYTES]

theorem BUFSIZE_pos : 0 < BUFSIZE := by
  rw [BUFSIZE_eq]
  omega

theorem size_add_eq {a b : Nat} (h : a + b < 2 ^ 64) : size_add a b = a + b := by
  simp only [size_add, SIZE_MOD]
  exact if_pos h

theorem size_sub_eq {a b : Nat} (h : b ≤ a) : size_sub a b = a - b := by
  simp only [size_sub]
  exact if_pos h

theorem rlen_enc : size_sub BUFSIZE crypto_secretbox_MACBYTES = RLEN := by
  rw [size_sub_eq, RLEN]
  rw [BUFSIZE_eq, crypto_secretbox_MACBYTES]
  omega

theorem nonceState_succ (o : Nat) : nonceState (o + 1) = sodium_increment (nonceState o) := by
  simp only [nonceState]
  exact Function.iterate_succ_apply' _ _ _

theorem nonceR_eq (o : Nat) : nonceR o = sodium_increment (nonceState o) := by
  rw [← nonceState_succ]
  rfl

theorem cipher_step_empty (sb : Sodium) (enc : Bool) (key : Key) (rlen : Nat) (e : Bool)
    (fout n : Bytes) (used : List Bytes) :
    cipher_step sb enc key rlen ⟨⟨[], e⟩, fout, n, used⟩ = .halt ⟨⟨fout, .success⟩, used⟩ := by
  by_cases hr : rlen = 0
  · simp [cipher_step, fread, hr]
  · simp [cipher_step, fread_one hr]

theorem cipher_step_dec (sb : Sodium) (enc : Bool) (key : Key) (rlen : Nat)
    (s s1 : CipherState) (h : cipher_step sb enc key rlen s = .next s1) :
    s1.fin.data.length < s.fin.data.length := by
  obtain ⟨⟨d, e⟩, fout, n, used⟩ := s
  by_cases hr : rlen = 0
  · simp [cipher_step, fread, hr] at h
  · simp only [cipher_step, fread_one hr] at h
    by_cases hd : d.length = 0
    · simp [hd] at h
    · have hlen : (d.drop rlen).length < d.length := by
        simp only [List.length_drop]
        omega
      repeat' split at h
      all_goals first
        | (cases h; done)
        | (cases h; exact hlen)

theorem cipher_enc_eq (sb : Sodium) (key : Key) (fin : FILE) (fout : Bytes) (o : Outcome)
    (log : List Bytes)
    (h : Reaches (cipher_step sb true key RLEN) ⟨fin, fout, nonceState 0, []⟩ ⟨o, log⟩) :
    cipher sb ⟨fin, fout, true, key⟩ = some o := by
  have := run_eq_of_reaches (fun s : CipherState => s.fin.data.length)
    (cipher_step_dec sb true key RLEN) (fin.data.length + 1) _ _ (Nat.lt_succ_self _) h
  simp only [cipher, cipher_session, rlen_enc, if_true]
  simp only [nonceState, Function.iterate_zero, id] at this
  rw [this]
  rfl

theorem cipher_dec_eq (sb : Sodium) (key : Key) (fin : FILE) (fout : Bytes) (o : Outcome)
    (log : List Bytes)
    (h : Reaches (cipher_step sb false key BUFSIZE) ⟨fin, fout, nonceState 0, []⟩ ⟨o, log⟩) :
    cipher sb ⟨fin, fout, false, key⟩ = some o := by
  have := run_eq_of_reaches (fun s : CipherState => s.fin.data.length)
    (cipher_step_dec sb false key BUFSIZE) (fin.data.length + 1) _ _ (Nat.lt_succ_self _) h
  simp only [cipher, cipher_session]
  simp only [nonceState, Function.iterate_zero, id] at this
  simp only [Bool.false_eq_true, if_false]
  rw [this]
  rfl

theorem cipher_step_seal (sb : Sodium) (hsb : sb.EasyOK) (key : Key) (p : Bytes)
    (hp : p ≠ []) (e : Bool) (fout n : Bytes) (used : List Bytes) :
    cipher_step sb true key RLEN ⟨⟨p, e⟩, fout, n, used⟩ =
      .next ⟨⟨p.drop RLEN, e || decide (p.length < RLEN)⟩,
        fout ++ sb.secretbox_easy (p.take RLEN) (sodium_increment n) key,
        sodium_increment n, used ++ [sodium_increment n]⟩ := by
  have hr : RLEN ≠ 0 := Nat.pos_iff_ne_zero.mp RLEN_pos
  have hlen : 0 < p.length := List.length_pos.mpr hp
  have hmin : min RLEN p.length ≠ 0 := by
    have := RLEN_pos
    omega
  have hR : RLEN = 1048560 := RLEN_eq
  have hw : size_add (min RLEN p.length) crypto_secretbox_MACBYTES
      = min RLEN p.length + crypto_secretbox_MACBYTES := by
    apply size_add_eq
    simp only [crypto_secretbox_MACBYTES, hR]
    omega
  have hw0 : min RLEN p.length + crypto_secretbox_MACBYTES ≠ 0 := by omega
  have hc : (sb.secretbox_easy (p.take RLEN) (sodium_increment n) key).length
      = min RLEN p.length + crypto_secretbox_MACBYTES := by
    rw [hsb.seal_length, List.length_take]
  simp only [cipher_step, fread_one hr, hmin, if_false, if_true, hw, fwrite_one hw0,
    Nat.mul_one, one_ne_zero]
  rw [List.take_of_length_le (Nat.le_of_eq hc)]

theorem cipher_step_open (sb : Sodium) (key : Key) (d m : Bytes) (hd : d ≠ []) (e : Bool)
    (fout n : Bytes) (used : List Bytes)
    (ho : sb.secretbox_open_easy (d.take BUFSIZE) (sodium_increment n) key = some m)
    (hl : (d.take BUFSIZE).length = m.length + crypto_secretbox_MACBYTES)
    (hm : m ≠ []) :
    cipher_step sb false key BUFSIZE ⟨⟨d, e⟩, fout, n, used⟩ =
      .next ⟨⟨d.drop BUFSIZE, e || decide (d.length < BUFSIZE)⟩, fout ++ m,
        sodium_increment n, used ++ [sodium_increment n]⟩ := by
  have hr : BUFSIZE ≠ 0 := Nat.pos_iff_ne_zero.mp BUFSIZE_pos
  have hlen : 0 < d.length := List.length_pos.mpr hd
  have hmlen : 0 < m.length := List.length_pos.mpr hm
  have hB : BUFSIZE = 1048576 := BUFSIZE_eq
  rw [List.length_take] at hl
  have hmin : min BUFSIZE d.length ≠ 0 := by omega
  have hw : size_sub (min BUFSIZE d.length) crypto_secretbox_MACBYTES = m.length := by
    rw [size_sub_eq (by omega)]
    omega
  have hw0 : m.length ≠ 0 := by omega
  simp only [cipher_step, fread_one hr, hmin, if_false, Bool.false_eq_true, ho, hw,
    fwrite_one hw0, Nat.mul_one, one_ne_zero, List.take_length]

theorem cipher_step_reject (sb : Sodium) (key : Key) (d : Bytes) (hd : d ≠ []) (e : Bool)
    (fout n : Bytes) (used : List Bytes)
    (ho : sb.secretbox_open_easy (d.take BUFSIZE) (sodium_increment n) key = none) :
    cipher_step sb false key BUFSIZE ⟨⟨d, e⟩, fout, n, used⟩ =
      .halt ⟨⟨fout, .errx .invalidMessageData⟩, used ++ [sodium_increment n]⟩ := by
  have hr : BUFSIZE ≠ 0 := Nat.pos_iff_ne_zero.mp BUFSIZE_pos
  have hlen : 0 < d.length := List.length_pos.mpr hd
  have hB : 0 < BUFSIZE := BUFSIZE_pos
  have hmin : min BUFSIZE d.length ≠ 0 := by omega
  simp only [cipher_step, fread_one hr, hmin, if_false, Bool.false_eq_true, ho]

theorem recordsRFrom_nil (sb : Sodium) (key : Key) (o : Nat) :
    recordsRFrom sb key o [] = [] := by
  simp [recordsRFrom, nchunks_zero RLEN_pos]

theorem recordsRFrom_cons (sb : Sodium) (key : Key) (o : Nat) (p : Bytes) (hp : p ≠ []) :
    recordsRFrom sb key o p =
      recordR sb key o (p.take RLEN) :: recordsRFrom sb key (o + 1) (p.drop RLEN) := by
  have hlen : 0 < p.length := List.length_pos.mpr hp
  simp only [recordsRFrom, nchunks_pos RLEN_pos hlen, range_map_succ, chunk_zero, chunk_succ,
    List.length_drop, Nat.add_zero]
  congr 2
  funext j
  congr 1
  omega

theorem recordsRFrom_zero (sb : Sodium) (key : Key) (p : Bytes) :
    recordsRFrom sb key 0 p = recordsR sb key p := by
  simp [recordsRFrom, recordsR]

theorem nchunks_drop {r : Nat} (hr : 0 < r) {p : Bytes} {k : Nat}
    (h : nchunks r p.length = k + 1) : nchunks r (p.drop r).length = k := by
  have hpos : 0 < p.length := by
    by_contra hc
    have h0 : p.length = 0 := by omega
    rw [h0, nchunks_zero hr] at h
    omega
  have := nchunks_pos hr hpos
  simp only [List.length_drop]
  omega

theorem ne_nil_of_nchunks {r : Nat} (hr : 0 < r) {p : Bytes} {k : Nat}
    (h : nchunks r p.length = k + 1) : p ≠ [] := by
  rintro rfl
  simp [nchunks_zero hr] at h

theorem cipher_enc_reaches (sb : Sodium) (hsb : sb.EasyOK) (key : Key) :
    ∀ (k : Nat) (p : Bytes) (o : Nat) (e : Bool) (fout : Bytes) (used : List Bytes),
      nchunks RLEN p.length = k →
      Reaches (cipher_step sb true key RLEN) ⟨⟨p, e⟩, fout, nonceState o, used⟩
        ⟨⟨fout ++ (recordsRFrom sb key o p).flatten, .success⟩,
          used ++ (List.range k).map (fun j => nonceR (o + j))⟩ := by
  intro k
  induction k with
  | zero =>
    intro p o e fout used h
    have hp : p = [] := List.length_eq_zero.mp (nchunks_eq_zero RLEN_pos h)
    subst hp
    refine Reaches.of_halt ?_
    simp [cipher_step_empty, recordsRFrom_nil]
  | succ k ih =>
    intro p o e fout used h
    have hp : p ≠ [] := ne_nil_of_nchunks RLEN_pos h
    have hk := nchunks_drop RLEN_pos h
    refine Reaches.of_next (cipher_step_seal sb hsb key p hp e fout (nonceState o) used) ?_
    have := ih (p.drop RLEN) (o + 1) (e || decide (p.length < RLEN))
      (fout ++ sb.secretbox_easy (p.take RLEN) (sodium_increment (nonceState o)) key)
      (used ++ [sodium_increment (nonceState o)]) hk
    rw [nonceState_succ] at this
    have e1 : fout ++ (recordsRFrom sb key o p).flatten
        = fout ++ sb.secretbox_easy (p.take RLEN) (sodium_increment (nonceState o)) key
          ++ (recordsRFrom sb key (o + 1) (p.drop RLEN)).flatten := by
      rw [recordsRFrom_cons sb key o p hp, List.flatten_cons, recordR, nonceR_eq,
        List.append_assoc]
    have e2 : used ++ (List.range (k + 1)).map (fun j => nonceR (o + j))
        = used ++ [sodium_increment (nonceState o)]
          ++ (List.range k).map (fun j => nonceR (o + 1 + j)) := by
      rw [range_map_succ, Nat.add_zero, nonceR_eq, List.append_assoc, List.singleton_append]
      congr 3
      funext j
      congr 1
      omega
    rw [e1, e2]
    exact this

theorem record_take_drop (sb : Sodium) (hsb : sb.EasyOK) (key : Key) (o : Nat) (p : Bytes) :
    (recordR sb key o (p.take RLEN)
        ++ (recordsRFrom sb key (o + 1) (p.drop RLEN)).flatten).take BUFSIZE
      = recordR sb key o (p.take RLEN) ∧
    (recordR sb key o (p.take RLEN)
        ++ (recordsRFrom sb key (o + 1) (p.drop RLEN)).flatten).drop BUFSIZE
      = (recordsRFrom sb key (o + 1) (p.drop RLEN)).flatten := by
  have hl : (recordR sb key o (p.take RLEN)).length
      = min RLEN p.length + crypto_secretbox_MACBYTES := by
    rw [recordR, hsb.seal_length, List.length_take]
  have hadd := RLEN_add
  by_cases h : RLEN ≤ p.length
  · have hfull : (recordR sb key o (p.take RLEN)).length = BUFSIZE := by omega
    exact ⟨List.take_left' hfull, List.drop_left' hfull⟩
  · have hd : p.drop RLEN = [] := List.drop_of_length_le (by omega)
    have hshort : (recordR sb key o (p.take RLEN)).length ≤ BUFSIZE := by omega
    rw [hd, recordsRFrom_nil, List.flatten_nil, List.append_nil]
    exact ⟨List.take_of_length_le hshort, List.drop_of_length_le hshort⟩

theorem cipher_step_open_record (sb : Sodium) (hsb : sb.EasyOK) (key : Key) (o : Nat)
    (p : Bytes) (hp : p ≠ []) (e : Bool) (fout : Bytes) (used : List Bytes) (rest : Bytes)
    (ht : (recordR sb key o (p.take RLEN) ++ rest).take BUFSIZE
      = recordR sb key o (p.take RLEN)) :
    cipher_step sb false key BUFSIZE
        ⟨⟨recordR sb key o (p.take RLEN) ++ rest, e⟩, fout, nonceState o, used⟩ =
      .next ⟨⟨(recordR sb key o (p.take RLEN) ++ rest).drop BUFSIZE,
          e || decide ((recordR sb key o (p.take RLEN) ++ rest).length < BUFSIZE)⟩,
        fout ++ p.take RLEN, sodium_increment (nonceState o),
        used ++ [sodium_increment (nonceState o)]⟩ := by
  have hlen : 0 < p.length := List.length_pos.mpr hp
  have hR := RLEN_pos
  have hrl : (recordR sb key o (p.take RLEN)).length
      = (p.take RLEN).length + crypto_secretbox_MACBYTES := by
    rw [recordR, hsb.seal_length]
  have hm : p.take RLEN ≠ [] := by
    intro h0
    have := congrArg List.length h0
    simp only [List.length_take, List.length_nil] at this
    omega
  have hne : recordR sb key o (p.take RLEN) ++ rest ≠ [] := by
    intro h0
    have := congrArg List.length h0
    simp only [List.length_append, List.length_nil] at this
    have := List.length_pos.mpr hm
    omega
  apply cipher_step_open sb key _ (p.take RLEN) hne e fout (nonceState o) used
  · rw [ht, ← nonceR_eq, recordR]
    exact hsb.open_seal _ _ _
  · rw [ht, hrl]
  · exact hm

theorem cipher_dec_reaches (sb : Sodium) (hsb : sb.EasyOK) (key : Key) :
    ∀ (k : Nat) (p : Bytes) (o : Nat) (e : Bool) (fout : Bytes) (used : List Bytes),
      nchunks RLEN p.length = k →
      Reaches (cipher_step sb false key BUFSIZE)
        ⟨⟨(recordsRFrom sb key o p).flatten, e⟩, fout, nonceState o, used⟩
        ⟨⟨fout ++ p, .success⟩, used ++ (List.range k).map (fun j => nonceR (o + j))⟩ := by
  intro k
  induction k with
  | zero =>
    intro p o e fout used h
    have hp : p = [] := List.length_eq_zero.mp (nchunks_eq_zero RLEN_pos h)
    subst hp
    refine Reaches.of_halt ?_
    simp [cipher_step_empty, recordsRFrom_nil]
  | succ k ih =>
    intro p o e fout used h
    have hp : p ≠ [] := ne_nil_of_nchunks RLEN_pos h
    have hk := nchunks_drop RLEN_pos h
    obtain ⟨ht, hd⟩ := record_take_drop sb hsb key o p
    rw [recordsRFrom_cons sb key o p hp, List.flatten_cons]
    refine Reaches.of_next (cipher_step_open_record sb hsb key o p hp e fout used _ ht) ?_
    rw [hd]
    have := ih (p.drop RLEN) (o + 1) (e || decide ((recordR sb key o (p.take RLEN)
      ++ (recordsRFrom sb key (o + 1) (p.drop RLEN)).flatten).length < BUFSIZE))
      (fout ++ p.take RLEN) (used ++ [sodium_increment (nonceState o)]) hk
    rw [nonceState_succ] at this
    have e1 : fout ++ p = fout ++ p.take RLEN ++ p.drop RLEN := by
      rw [List.append_assoc, List.take_append_drop]
    have e2 : used ++ (List.range (k + 1)).map (fun j => nonceR (o + j))
        = used ++ [sodium_increment (nonceState o)]
          ++ (List.range k).map (fun j => nonceR (o + 1 + j)) := by
      rw [range_map_succ, Nat.add_zero, nonceR_eq, List.append_assoc, List.singleton_append]
      congr 3
      funext j
      congr 1
      omega
    rw [e1, e2]
    exact this

theorem cipher_dec_truncated (sb : Sodium) (hsb : sb.EasyOK) (key : Key) :
    ∀ (j : Nat) (p : Bytes) (o : Nat) (e : Bool) (fout : Bytes) (used : List Bytes),
      j < nchunks RLEN p.length →
      Reaches (cipher_step sb false key BUFSIZE)
        ⟨⟨((recordsRFrom sb key o p).take j).flatten, e⟩, fout, nonceState o, used⟩
        ⟨⟨fout ++ p.take (j * RLEN), .success⟩,
          used ++ (List.range j).map (fun i => nonceR (o + i))⟩ := by
  intro j
  induction j with
  | zero =>
    intro p o e fout used _
    refine Reaches.of_halt ?_
    simp [cipher_step_empty]
  | succ j ih =>
    intro p o e fout used h
    have hlt := lt_of_lt_nchunks RLEN_pos h
    have hR := RLEN_pos
    have hmul : (j + 1) * RLEN = RLEN + j * RLEN := by ring
    have hp : p ≠ [] := by
      rintro rfl
      simp at hlt
    have hj : j < nchunks RLEN (p.drop RLEN).length := by
      have := nchunks_pos RLEN_pos (List.length_pos.mpr hp)
      simp only [List.length_drop]
      omega
    have hl : (recordR sb key o (p.take RLEN)).length = BUFSIZE := by
      rw [recordR, hsb.seal_length, List.length_take, ← RLEN_add]
      have : 0 ≤ j * RLEN := Nat.zero_le _
      omega
    rw [recordsRFrom_cons sb key o p hp, List.take_succ_cons, List.flatten_cons]
    have ht : (recordR sb key o (p.take RLEN)
        ++ ((recordsRFrom sb key (o + 1) (p.drop RLEN)).take j).flatten).take BUFSIZE
        = recordR sb key o (p.take RLEN) := List.take_left' hl
    have hd : (recordR sb key o (p.take RLEN)
        ++ ((recordsRFrom sb key (o + 1) (p.drop RLEN)).take j).flatten).drop BUFSIZE
        = ((recordsRFrom sb key (o + 1) (p.drop RLEN)).take j).flatten := List.drop_left' hl
    refine Reaches.of_next (cipher_step_open_record sb hsb key o p hp e fout used _ ht) ?_
    rw [hd]
    have := ih (p.drop RLEN) (o + 1) (e || decide ((recordR sb key o (p.take RLEN)
      ++ ((recordsRFrom sb key (o + 1) (p.drop RLEN)).take j).flatten).length < BUFSIZE))
      (fout ++ p.take RLEN) (used ++ [sodium_increment (nonceState o)]) hj
    rw [nonceState_succ] at this
    have e1 : fout ++ p.take ((j + 1) * RLEN)
        = fout ++ p.take RLEN ++ (p.drop RLEN).take (j * RLEN) := by
      rw [hmul, List.take_add, List.append_assoc]
    have e2 : used ++ (List.range (j + 1)).map (fun i => nonceR (o + i))
        = used ++ [sodium_increment (nonceState o)]
          ++ (List.range j).map (fun i => nonceR (o + 1 + i)) := by
      rw [range_map_succ, Nat.add_zero, nonceR_eq, List.append_assoc, List.singleton_append]
      congr 3
      funext i
      congr 1
      omega
    rw [e1, e2]
    exact this

theorem cipher_dec_fails (sb : Sodium) (hlen : sb.OpenEasyLength) (key : Key) :
    ∀ (i : Nat) (b : Bytes) (o : Nat) (e : Bool) (fout : Bytes) (used : List Bytes)
      (ms : Nat → Bytes),
      i < nchunks BUFSIZE b.length →
      (∀ j, j < i →
        sb.secretbox_open_easy (chunk BUFSIZE b j) (nonceR (o + j)) key = some (ms j)) →
      sb.secretbox_open_easy (chunk BUFSIZE b i) (nonceR (o + i)) key = none →
      Reaches (cipher_step sb false key BUFSIZE) ⟨⟨b, e⟩, fout, nonceState o, used⟩
        ⟨⟨fout ++ ((List.range i).map ms).flatten, .errx .invalidMessageData⟩,
          used ++ (List.range (i + 1)).map (fun j => nonceR (o + j))⟩ := by
  intro i
  induction i with
  | zero =>
    intro b o e fout used ms h _ hfail
    have hlt := lt_of_lt_nchunks BUFSIZE_pos h
    have hb : b ≠ [] := by
      rintro rfl
      simp at hlt
    rw [chunk_zero, Nat.add_zero, nonceR_eq] at hfail
    refine Reaches.of_halt ?_
    rw [cipher_step_reject sb key b hb e fout (nonceState o) used hfail]
    simp [nonceR_eq, List.range_succ]
  | succ i ih =>
    intro b o e fout used ms h hok hfail
    have hlt := lt_of_lt_nchunks BUFSIZE_pos h
    have hB := BUFSIZE_eq
    have hmul : (i + 1) * BUFSIZE = BUFSIZE + i * BUFSIZE := by ring
    have hb : b ≠ [] := by
      rintro rfl
      simp at hlt
    have hi : i < nchunks BUFSIZE (b.drop BUFSIZE).length := by
      have := nchunks_pos BUFSIZE_pos (List.length_pos.mpr hb)
      simp only [List.length_drop]
      omega
    have h0 := hok 0 (Nat.succ_pos i)
    rw [chunk_zero, Nat.add_zero, nonceR_eq] at h0
    have hl0 := hlen _ _ _ _ h0
    have htl : (b.take BUFSIZE).length = BUFSIZE := by
      rw [List.length_take]
      have : 0 ≤ i * BUFSIZE := Nat.zero_le _
      omega
    have hm0 : ms 0 ≠ [] := by
      intro hnil
      rw [hnil, htl, hB] at hl0
      simp [crypto_secretbox_MACBYTES] at hl0
    refine Reaches.of_next
      (cipher_step_open sb key b (ms 0) hb e fout (nonceState o) used h0 hl0 hm0) ?_
    have := ih (b.drop BUFSIZE) (o + 1) (e || decide (b.length < BUFSIZE)) (fout ++ ms 0)
      (used ++ [sodium_increment (nonceState o)]) (fun j => ms (j + 1)) hi
      (by
        intro j hj
        have := hok (j + 1) (Nat.succ_lt_succ hj)
        rw [chunk_succ] at this
        rw [← this]
        congr 2
        omega)
      (by
        rw [chunk_succ] at hfail
        rw [← hfail]
        congr 2
        omega)
    rw [nonceState_succ] at this
    have e1 : fout ++ ((List.range (i + 1)).map ms).flatten
        = fout ++ ms 0 ++ ((List.range i).map (fun j => ms (j + 1))).flatten := by
      rw [range_map_succ, List.flatten_cons, List.append_assoc]
    have e2 : used ++ (List.range (i + 1 + 1)).map (fun j => nonceR (o + j))
        = used ++ [sodium_increment (nonceState o)]
          ++ (List.range (i + 1)).map (fun j => nonceR (o + 1 + j)) := by
      rw [range_map_succ, Nat.add_zero, nonceR_eq, List.append_assoc, List.singleton_append]
      congr 3
      funext j
      congr 1
      omega
    rw [e1, e2]
    exact this

/-! ## Variant D: the loops of `encrypt` and `decrypt` -/

theorem encrypt_step_dec (sb : Sodium) (rnd : Nat → Nonce) (key : Key) (mlen : Nat)
    (s s1 : EncState) (h : encrypt_step sb rnd key mlen s = .next s1) :
    s1.fin.data.length < s.fin.data.length := by
  obtain ⟨⟨d, e⟩, fout, i⟩ := s
  by_cases hr : mlen = 0
  · simp [encrypt_step, fread, hr] at h
  · simp only [encrypt_step, fread_one hr] at h
    by_cases hd : d.length = 0
    · simp [hd] at h
    · have hlen : (d.drop mlen).length < d.length := by
        simp only [List.length_drop]
        omega
      repeat' split at h
      all_goals first
        | (cases h; done)
        | (cases h; exact hlen)

theorem decrypt_step_dec (sb : Sodium) (key : Key) (clen : Nat)
    (s s1 : DecState) (h : decrypt_step sb key clen s = .next s1) :
    s1.fin.data.length < s.fin.data.length := by
  obtain ⟨⟨d, e⟩, fout⟩ := s
  have hN : crypto_secretbox_NONCEBYTES ≠ 0 := by decide
  have hM : crypto_secretbox_MACBYTES ≠ 0 := by decide
  by_cases h1 : crypto_secretbox_NONCEBYTES ≤ d.length
  · rw [decrypt_step, fread_item_full hN d e h1] at h
    simp only [one_ne_zero, if_false] at h
    by_cases h2 : crypto_secretbox_MACBYTES ≤ (d.drop crypto_secretbox_NONCEBYTES).length
    · rw [fread_item_full hM _ e h2] at h
      simp only [one_ne_zero, if_false] at h
      by_cases hr : clen = 0
      · simp [fread, hr] at h
      · simp only [fread_one hr] at h
        have hlen : (((d.drop crypto_secretbox_NONCEBYTES).drop
            crypto_secretbox_MACBYTES).drop clen).length < d.length := by
          simp only [List.length_drop]
          omega
        repeat' split at h
        all_goals first
          | (cases h; done)
          | (cases h; exact hlen)
    · rw [fread_item_short _ e (Nat.lt_of_not_le h2)] at h
      simp at h
  · rw [decrypt_step, fread_item_short d e (Nat.lt_of_not_le h1)] at h
    simp at h

theorem encrypt_eq (sb : Sodium) (rnd : Nat → Nonce) (key : Key) (fin : FILE)
    (fout : Bytes) (enc : Bool) (o : Outcome)
    (h : Reaches (encrypt_step sb rnd key BUFSIZE) ⟨fin, fout, 0⟩ o) :
    encrypt sb rnd ⟨fin, fout, enc, key⟩ = some o :=
  run_eq_of_reaches (fun s : EncState => s.fin.data.length)
    (encrypt_step_dec sb rnd key BUFSIZE) (fin.data.length + 1) _ _ (Nat.lt_succ_self _) h

theorem decrypt_eq (sb : Sodium) (key : Key) (fin : FILE) (fout : Bytes) (enc : Bool)
    (o : Outcome) (h : Reaches (decrypt_step sb key BUFSIZE) ⟨fin, fout⟩ o) :
    decrypt sb ⟨fin, fout, enc, key⟩ = some o :=
  run_eq_of_reaches (fun s : DecState => s.fin.data.length)
    (decrypt_step_dec sb key BUFSIZE) (fin.data.length + 1) _ _ (Nat.lt_succ_self _) h

theorem encrypt_step_empty (sb : Sodium) (rnd : Nat → Nonce) (key : Key) (e : Bool)
    (fout : Bytes) (i : Nat) :
    encrypt_step sb rnd key BUFSIZE ⟨⟨[], e⟩, fout, i⟩ = .halt ⟨fout, .success⟩ := by
  have hr : BUFSIZE ≠ 0 := Nat.pos_iff_ne_zero.mp BUFSIZE_pos
  simp [encrypt_step, fread_one hr]

theorem encrypt_step_seal (sb : Sodium) (hsb : sb.DetachedOK) (rnd : Nat → Nonce) (key : Key)
    (p : Bytes) (hp : p ≠ []) (e : Bool) (fout : Bytes) (i : Nat) :
    encrypt_step sb rnd key BUFSIZE ⟨⟨p, e⟩, fout, i⟩ =
      .next ⟨⟨p.drop BUFSIZE, e || decide (p.length < BUFSIZE)⟩,
        fout ++ recordD sb key (rnd i) (p.take BUFSIZE), i + 1⟩ := by
  have hr : BUFSIZE ≠ 0 := Nat.pos_iff_ne_zero.mp BUFSIZE_pos
  have hB := BUFSIZE_pos
  have hlen : 0 < p.length := List.length_pos.mpr hp
  have hmin : min BUFSIZE p.length ≠ 0 := by omega
  have hN : crypto_secretbox_NONCEBYTES ≠ 0 := by decide
  have hM : crypto_secretbox_MACBYTES ≠ 0 := by decide
  have hc : (sb.secretbox_detached (p.take BUFSIZE) (rnd i).val key).1.length
      = min BUFSIZE p.length := by
    rw [hsb.seal_length, List.length_take]
  simp only [encrypt_step, fread_one hr, hmin, if_false, fwrite_one hN, fwrite_one hM,
    fwrite_one hmin, Nat.mul_one, one_ne_zero, recordD]
  rw [List.take_of_length_le (Nat.le_of_eq hc),
    List.take_of_length_le (Nat.le_of_eq (rnd i).property),
    List.take_of_length_le
      (Nat.le_of_eq (sb.secretbox_detached (p.take BUFSIZE) (rnd i).val key).2.property)]
  simp only [List.append_assoc]

theorem decrypt_step_fields (sb : Sodium) (key : Key) (n mac rest : Bytes) (e : Bool)
    (fout : Bytes) (hn : n.length = crypto_secretbox_NONCEBYTES)
    (hm : mac.length = crypto_secretbox_MACBYTES) (hrest : rest ≠ []) :
    decrypt_step sb key BUFSIZE ⟨⟨n ++ (mac ++ rest), e⟩, fout⟩ =
      match sb.secretbox_open_detached (rest.take BUFSIZE) mac n key with
      | none => .halt ⟨fout, .errx .invalidMessageData⟩
      | some m =>
        if (e || decide (rest.length < BUFSIZE)) = true then
          .halt ⟨fout ++ m.take (min BUFSIZE rest.length), .success⟩
        else
          .next ⟨⟨rest.drop BUFSIZE, e || decide (rest.length < BUFSIZE)⟩,
            fout ++ m.take (min BUFSIZE rest.length)⟩ := by
  have hr : BUFSIZE ≠ 0 := Nat.pos_iff_ne_zero.mp BUFSIZE_pos
  have hB := BUFSIZE_pos
  have hN : crypto_secretbox_NONCEBYTES ≠ 0 := by decide
  have hM : crypto_secretbox_MACBYTES ≠ 0 := by decide
  have hlen : 0 < rest.length := List.length_pos.mpr hrest
  have hmin : min BUFSIZE rest.length ≠ 0 := by omega
  have h1 : fread crypto_secretbox_NONCEBYTES 1 ⟨n ++ (mac ++ rest), e⟩
      = (n, 1, ⟨mac ++ rest, e⟩) := by
    rw [fread_item_full hN _ e (by rw [List.length_append]; omega),
      List.take_left' hn, List.drop_left' hn]
  have h2 : fread crypto_secretbox_MACBYTES 1 ⟨mac ++ rest, e⟩ = (mac, 1, ⟨rest, e⟩) := by
    rw [fread_item_full hM _ e (by rw [List.length_append]; omega),
      List.take_left' hm, List.drop_left' hm]
  rw [decrypt_step, h1]
  simp only [one_ne_zero, if_false, h2, fread_one hr, hmin]
  cases sb.secretbox_open_detached (rest.take BUFSIZE) mac n key with
  | none => rfl
  | some m => simp only [fwrite_one hmin, Nat.mul_one, one_ne_zero, if_false]

theorem decrypt_step_short_nonce (sb : Sodium) (key : Key) (t : Bytes) (e : Bool)
    (fout : Bytes) (ht : t.length < crypto_secretbox_NONCEBYTES) :
    decrypt_step sb key BUFSIZE ⟨⟨t, e⟩, fout⟩ = .halt ⟨fout, .errx .errorReadingNonce⟩ := by
  rw [decrypt_step, fread_item_short t e ht]
  simp

theorem decrypt_step_short_mac (sb : Sodium) (key : Key) (t : Bytes) (e : Bool)
    (fout : Bytes) (h1 : crypto_secretbox_NONCEBYTES ≤ t.length)
    (h2 : t.length < crypto_secretbox_NONCEBYTES + crypto_secretbox_MACBYTES) :
    decrypt_step sb key BUFSIZE ⟨⟨t, e⟩, fout⟩ = .halt ⟨fout, .errx .errorReadingMac⟩ := by
  have hN : crypto_secretbox_NONCEBYTES ≠ 0 := by decide
  rw [decrypt_step, fread_item_full hN t e h1]
  simp only [one_ne_zero, if_false]
  rw [fread_item_short _ e (by rw [List.length_drop]; omega)]
  simp

theorem recordsDFrom_nil (sb : Sodium) (key : Key) (rnd : Nat → Nonce) (o : Nat) :
    recordsDFrom sb key rnd o [] = [] := by
  simp [recordsDFrom, nchunks_zero BUFSIZE_pos]

theorem recordsDFrom_cons (sb : Sodium) (key : Key) (rnd : Nat → Nonce) (o : Nat) (p : Bytes)
    (hp : p ≠ []) :
    recordsDFrom sb key rnd o p =
      recordD sb key (rnd o) (p.take BUFSIZE)
        :: recordsDFrom sb key rnd (o + 1) (p.drop BUFSIZE) := by
  have hlen : 0 < p.length := List.length_pos.mpr hp
  simp only [recordsDFrom, nchunks_pos BUFSIZE_pos hlen, range_map_succ, chunk_zero,
    chunk_succ, List.length_drop, Nat.add_zero]
  congr 2
  funext j
  congr 2
  omega

theorem recordsDFrom_zero (sb : Sodium) (key : Key) (rnd : Nat → Nonce) (p : Bytes) :
    recordsDFrom sb key rnd 0 p = recordsD sb key rnd p := by
  simp [recordsDFrom, recordsD]

theorem encrypt_reaches (sb : Sodium) (hsb : sb.DetachedOK) (rnd : Nat → Nonce) (key : Key) :
    ∀ (k : Nat) (p : Bytes) (o : Nat) (e : Bool) (fout : Bytes),
      nchunks BUFSIZE p.length = k →
      Reaches (encrypt_step sb rnd key BUFSIZE) ⟨⟨p, e⟩, fout, o⟩
        ⟨fout ++ (recordsDFrom sb key rnd o p).flatten, .success⟩ := by
  intro k
  induction k with
  | zero =>
    intro p o e fout h
    have hp : p = [] := List.length_eq_zero.mp (nchunks_eq_zero BUFSIZE_pos h)
    subst hp
    refine Reaches.of_halt ?_
    simp [encrypt_step_empty, recordsDFrom_nil]
  | succ k ih =>
    intro p o e fout h
    have hp : p ≠ [] := ne_nil_of_nchunks BUFSIZE_pos h
    have hk := nchunks_drop BUFSIZE_pos h
    refine Reaches.of_next (encrypt_step_seal sb hsb rnd key p hp e fout o) ?_
    have := ih (p.drop BUFSIZE) (o + 1) (e || decide (p.length < BUFSIZE))
      (fout ++ recordD sb key (rnd o) (p.take BUFSIZE)) hk
    rw [recordsDFrom_cons sb key rnd o p hp, List.flatten_cons, ← List.append_assoc]
    exact this

/-- A full record at the head of the input is opened and written, and the loop goes on with
what follows it. -/
theorem decrypt_step_full (sb : Sodium) (key : Key)
    (r : RecD) (m tail fout : Bytes) (h : r.OpensFull sb key m) (hml : m.length = BUFSIZE) :
    decrypt_step sb key BUFSIZE ⟨⟨r.bytes ++ tail, false⟩, fout⟩
      = .next ⟨⟨tail, false⟩, fout ++ m⟩ := by
  obtain ⟨hn, hm, hc, ho⟩ := h
  have hB := BUFSIZE_pos
  have hne : r.c ++ tail ≠ [] := by
    intro h0
    have := congrArg List.length h0
    simp only [List.length_append, List.length_nil] at this
    omega
  have e1 : r.bytes ++ tail = r.n ++ (r.mac ++ (r.c ++ tail)) := by
    simp only [RecD.bytes, List.append_assoc]
  have hl : ¬ (r.c ++ tail).length < BUFSIZE := by
    rw [List.length_append]
    omega
  have hmin : min BUFSIZE (r.c ++ tail).length = BUFSIZE := by
    rw [List.length_append]
    omega
  rw [e1, decrypt_step_fields sb key r.n r.mac (r.c ++ tail) false fout hn hm hne,
    List.take_left' hc, ho]
  simp only [Bool.false_or, decide_eq_true_eq, hl, if_false, hmin, List.drop_left' hc,
    decide_False]
  rw [List.take_of_length_le (by omega)]
  simp only [Bool.false_eq_true, if_false]

/-- Full records that open at the head of the input are processed in order; the loop then
continues with the rest of the input. -/
theorem decrypt_reaches_prefix (sb : Sodium) (key : Key) (tail : Bytes) (o : Outcome) :
    ∀ (rs : List RecD) (ms : List Bytes),
      List.Forall₂ (fun r m => RecD.OpensFull sb key r m ∧ m.length = BUFSIZE) rs ms →
      ∀ (fout : Bytes),
        Reaches (decrypt_step sb key BUFSIZE) ⟨⟨tail, false⟩, fout ++ ms.flatten⟩ o →
        Reaches (decrypt_step sb key BUFSIZE)
          ⟨⟨(rs.map RecD.bytes).flatten ++ tail, false⟩, fout⟩ o := by
  intro rs ms h
  induction h with
  | nil =>
    intro fout hr
    simpa using hr
  | @cons r m rs ms h1 _ ih =>
    intro fout hr
    rw [List.map_cons, List.flatten_cons, List.append_assoc]
    refine Reaches.of_next (decrypt_step_full sb key r m _ fout h1.1 h1.2) ?_
    apply ih
    rw [List.flatten_cons, ← List.append_assoc] at hr
    exact hr

theorem opensFull_length (sb : Sodium) (hlen : sb.OpenDetachedLength) (key : Key)
    {rs : List RecD} {ms : List Bytes} (h : List.Forall₂ (RecD.OpensFull sb key) rs ms) :
    List.Forall₂ (fun r m => RecD.OpensFull sb key r m ∧ m.length = BUFSIZE) rs ms := by
  refine List.Forall₂.imp ?_ h
  intro r m hr
  refine ⟨hr, ?_⟩
  obtain ⟨_, _, hc, ho⟩ := hr
  rw [hlen _ _ _ _ _ ho, hc]

/-- A last record with a short, non-empty ciphertext that opens ends the run with success. -/
theorem decrypt_step_last (sb : Sodium) (hlen : sb.OpenDetachedLength) (key : Key)
    (n mac c m fout : Bytes) (e : Bool) (hn : n.length = crypto_secretbox_NONCEBYTES)
    (hm : mac.length = crypto_secretbox_MACBYTES) (hc0 : c ≠ []) (hc : c.length < BUFSIZE)
    (ho : sb.secretbox_open_detached c mac n key = some m) :
    decrypt_step sb key BUFSIZE ⟨⟨n ++ (mac ++ c), e⟩, fout⟩
      = .halt ⟨fout ++ m, .success⟩ := by
  have hml := hlen _ _ _ _ _ ho
  rw [decrypt_step_fields sb key n mac c e fout hn hm hc0,
    List.take_of_length_le (Nat.le_of_lt hc), ho]
  simp only [hc, decide_True, Bool.or_true, if_true]
  rw [List.take_of_length_le (by omega)]

theorem decrypt_reaches_roundtrip (sb : Sodium) (hsb : sb.DetachedOK)
    (rnd : Nat → Nonce) (key : Key) :
    ∀ (k : Nat) (p : Bytes) (o : Nat) (fout : Bytes),
      nchunks BUFSIZE p.length = k →
      Reaches (decrypt_step sb key BUFSIZE)
        ⟨⟨(recordsDFrom sb key rnd o p).flatten, false⟩, fout⟩
        ⟨fout ++ p, if p.length % BUFSIZE = 0 then .errx .errorReadingNonce else .success⟩ := by
  intro k
  induction k with
  | zero =>
    intro p o fout h
    have hp : p = [] := List.length_eq_zero.mp (nchunks_eq_zero BUFSIZE_pos h)
    subst hp
    refine Reaches.of_halt ?_
    rw [recordsDFrom_nil, List.flatten_nil,
      decrypt_step_short_nonce sb key [] false fout (by decide)]
    simp
  | succ k ih =>
    intro p o fout h
    have hp : p ≠ [] := ne_nil_of_nchunks BUFSIZE_pos h
    have hk := nchunks_drop BUFSIZE_pos h
    have hB := BUFSIZE_pos
    have hpl : 0 < p.length := List.length_pos.mpr hp
    have hcl : (sb.secretbox_detached (p.take BUFSIZE) (rnd o).val key).1.length
        = min BUFSIZE p.length := by
      rw [hsb.seal_length, List.length_take]
    have hc0 : (sb.secretbox_detached (p.take BUFSIZE) (rnd o).val key).1 ≠ [] := by
      intro h0
      rw [h0, List.length_nil] at hcl
      omega
    have hopen := hsb.open_seal (p.take BUFSIZE) (rnd o).val key
    rw [recordsDFrom_cons sb key rnd o p hp, List.flatten_cons]
    by_cases hfull : BUFSIZE ≤ p.length
    · have hstep : decrypt_step sb key BUFSIZE
          ⟨⟨recordD sb key (rnd o) (p.take BUFSIZE)
            ++ (recordsDFrom sb key rnd (o + 1) (p.drop BUFSIZE)).flatten, false⟩, fout⟩
          = .next ⟨⟨(recordsDFrom sb key rnd (o + 1) (p.drop BUFSIZE)).flatten, false⟩,
              fout ++ p.take BUFSIZE⟩ := by
        have hn := (rnd o).property
        have hm := (sb.secretbox_detached (p.take BUFSIZE) (rnd o).val key).2.property
        have hc : (sb.secretbox_detached (p.take BUFSIZE) (rnd o).val key).1.length
            = BUFSIZE := by rw [hcl]; exact Nat.min_eq_left hfull
        have ho := hopen
        have hne : (sb.secretbox_detached (p.take BUFSIZE) (rnd o).val key).1
            ++ (recordsDFrom sb key rnd (o + 1) (p.drop BUFSIZE)).flatten ≠ [] := by
          intro h0
          exact hc0 (List.append_eq_nil.mp h0).1
        have hl : ¬ ((sb.secretbox_detached (p.take BUFSIZE) (rnd o).val key).1
            ++ (recordsDFrom sb key rnd (o + 1) (p.drop BUFSIZE)).flatten).length
            < BUFSIZE := by
          rw [List.length_append, hc]
          exact Nat.not_lt.mpr (Nat.le_add_right _ _)
        have hmin : min BUFSIZE ((sb.secretbox_detached (p.take BUFSIZE) (rnd o).val key).1
            ++ (recordsDFrom sb key rnd (o + 1) (p.drop BUFSIZE)).flatten).length
            = BUFSIZE := by
          rw [List.length_append, hc]
          exact Nat.min_eq_left (Nat.le_add_right _ _)
        have e1 : recordD sb key (rnd o) (p.take BUFSIZE)
            ++ (recordsDFrom sb key rnd (o + 1) (p.drop BUFSIZE)).flatten
            = (rnd o).val ++ ((sb.secretbox_detached (p.take BUFSIZE) (rnd o).val key).2.val
              ++ ((sb.secretbox_detached (p.take BUFSIZE) (rnd o).val key).1
                ++ (recordsDFrom sb key rnd (o + 1) (p.drop BUFSIZE)).flatten)) := by
          simp only [recordD, List.append_assoc]
        rw [e1, decrypt_step_fields sb key _ _ _ false fout hn hm hne,
          List.take_left' hc, ho]
        simp only [Bool.false_or, decide_eq_true_eq, hl, if_false, hmin,
          List.drop_left' hc, decide_False]
        rw [List.take_of_length_le (Nat.le_of_eq (by rw [List.length_take, ← hcl, hc]))]
        simp only [Bool.false_eq_true, if_false]
      refine Reaches.of_next hstep ?_
      have := ih (p.drop BUFSIZE) (o + 1) (fout ++ p.take BUFSIZE) hk
      have e2 : (p.drop BUFSIZE).length % BUFSIZE = p.length % BUFSIZE := by
        rw [List.length_drop]
        exact sub_mod_self hfull
      rw [e2, List.append_assoc, List.take_append_drop] at this
      exact this
    · have hshort : p.length < BUFSIZE := Nat.lt_of_not_le hfull
      have hd : p.drop BUFSIZE = [] := List.drop_of_length_le (Nat.le_of_lt hshort)
      have ht : p.take BUFSIZE = p := List.take_of_length_le (Nat.le_of_lt hshort)
      have hmod : p.length % BUFSIZE ≠ 0 := by
        rw [Nat.mod_eq_of_lt hshort]
        omega
      rw [hd, recordsDFrom_nil, List.flatten_nil, List.append_nil, if_neg hmod]
      refine Reaches.of_halt ?_
      have e1 : recordD sb key (rnd o) (p.take BUFSIZE)
          = (rnd o).val ++ ((sb.secretbox_detached (p.take BUFSIZE) (rnd o).val key).2.val
            ++ (sb.secretbox_detached (p.take BUFSIZE) (rnd o).val key).1) := by
        simp only [recordD, List.append_assoc]
      rw [e1, decrypt_step_fields sb key _ _ _ false fout (rnd o).property
        (sb.secretbox_detached _ _ _).2.property hc0,
        List.take_of_length_le (by omega), hopen]
      have hlt : (sb.secretbox_detached (p.take BUFSIZE) (rnd o).val key).1.length
          < BUFSIZE := by omega
      simp only [hlt, decide_True, Bool.or_true, if_true]
      rw [List.take_of_length_le (by rw [List.length_take]; omega), ht]

/-! ## The nonce of Variant R -/

theorem sodium_increment_carry_length (bs : Bytes) :
    ∀ c, (sodium_increment_carry c bs).length = bs.length := by
  induction bs with
  | nil => intro c; rfl
  | cons b bs ih => intro c; simp [sodium_increment_carry, ih]

theorem leValue_carry (bs : Bytes) :
    ∀ c, leValue (sodium_increment_carry c bs) = (c + leValue bs) % 256 ^ bs.length := by
  induction bs with
  | nil => intro c; simp [sodium_increment_carry, leValue, Nat.mod_one]
  | cons b bs ih =>
    intro c
    have hv : (Fin.ofNat (c + b.val) : Byte).val = (c + b.val) % 256 := rfl
    have h1 : (c + (b.val + 256 * leValue bs)) % 256 = (c + b.val) % 256 := by
      rw [← Nat.add_assoc, Nat.add_mul_mod_self_left]
    have h2 : (c + (b.val + 256 * leValue bs)) / 256 = (c + b.val) / 256 + leValue bs := by
      rw [← Nat.add_assoc, Nat.add_mul_div_left _ _ (by omega : 0 < 256)]
    simp only [sodium_increment_carry, leValue, List.length_cons, hv, ih]
    rw [pow_succ, Nat.mul_comm (256 ^ bs.length) 256, Nat.mod_mul, h1, h2]

theorem leValue_replicate_zero (n : Nat) : leValue (List.replicate n (0 : Byte)) = 0 := by
  induction n with
  | zero => rfl
  | succ n ih => simp [List.replicate_succ, leValue, ih]

theorem nonceState_length (i : Nat) : (nonceState i).length = crypto_secretbox_NONCEBYTES := by
  induction i with
  | zero => simp [nonceState]
  | succ i ih =>
    rw [nonceState_succ, sodium_increment, sodium_increment_carry_length, ih]

theorem leValue_nonceState (i : Nat) : leValue (nonceState i) = i % 2 ^ 192 := by
  have hpow : 256 ^ crypto_secretbox_NONCEBYTES = 2 ^ 192 := by
    norm_num [crypto_secretbox_NONCEBYTES]
  induction i with
  | zero =>
    simp only [nonceState, Function.iterate_zero, id, leValue_replicate_zero]
    rfl
  | succ i ih =>
    rw [nonceState_succ, sodium_increment, leValue_carry, nonceState_length, ih, hpow,
      Nat.add_comm 1, Nat.mod_add_mod]

theorem nonceR_injOn (i j : Nat) (hi : i < 2 ^ 192) (hj : j < 2 ^ 192)
    (h : nonceR i = nonceR j) : i = j := by
  have h1 := congrArg leValue h
  rw [nonceR_eq, nonceR_eq, ← nonceState_succ, ← nonceState_succ, leValue_nonceState,
    leValue_nonceState] at h1
  omega

theorem nonceR_iterate (i : Nat) : nonceR i = sodium_increment^[i] (nonceR 0) := by
  simp only [nonceR]
  rw [← Function.iterate_add_apply]

theorem cipher_step_log_next (sb : Sodium) (enc : Bool) (key : Key) (rlen : Nat)
    (s s1 : CipherState) (h : cipher_step sb enc key rlen s = .next s1) :
    s1.n = sodium_increment s.n ∧ s1.used = s.used ++ [sodium_increment s.n] := by
  rcases hf : fread 1 rlen s.fin with ⟨buf, bytes, fin1⟩
  simp only [cipher_step, hf] at h
  repeat' split at h
  all_goals first
    | (cases h; done)
    | (cases h; exact ⟨rfl, rfl⟩)

theorem cipher_step_log_halt (sb : Sodium) (enc : Bool) (key : Key) (rlen : Nat)
    (s : CipherState) (r : Session) (h : cipher_step sb enc key rlen s = .halt r) :
    r.nonces = s.used ∨ r.nonces = s.used ++ [sodium_increment s.n] := by
  rcases hf : fread 1 rlen s.fin with ⟨buf, bytes, fin1⟩
  simp only [cipher_step, hf] at h
  repeat' split at h
  all_goals first
    | (cases h; done)
    | (cases h; exact Or.inl rfl)
    | (cases h; exact Or.inr rfl)

theorem range_map_snoc (n : Nat) :
    (List.range n).map nonceR ++ [sodium_increment (nonceState n)]
      = (List.range (n + 1)).map nonceR := by
  rw [List.range_succ, List.map_append, List.map_singleton, nonceR_eq]

theorem cipher_session_log (sb : Sodium) (ci : cipher_info) :
    ∃ s, cipher_session sb ci = some s ∧
      s.nonces = (List.range s.nonces.length).map nonceR := by
  obtain ⟨s, hs⟩ := run_total (fun s : CipherState => s.fin.data.length)
    (cipher_step_dec sb ci.enc ci.key
      (if ci.enc then size_sub BUFSIZE crypto_secretbox_MACBYTES else BUFSIZE))
    (ci.fin.data.length + 1)
    ⟨ci.fin, ci.fout, List.replicate crypto_secretbox_NONCEBYTES 0, []⟩ (Nat.lt_succ_self _)
  refine ⟨s, hs, ?_⟩
  refine run_invariant
    (fun st : CipherState => st.n = nonceState st.used.length ∧
      st.used = (List.range st.used.length).map nonceR)
    (fun r : Session => r.nonces = (List.range r.nonces.length).map nonceR)
    ?_ ?_ _ _ s ⟨rfl, rfl⟩ hs
  · intro st st1 ⟨hn, hu⟩ hstep
    obtain ⟨h1, h2⟩ := cipher_step_log_next sb _ _ _ st st1 hstep
    have hl : st1.used.length = st.used.length + 1 := by rw [h2]; simp
    refine ⟨?_, ?_⟩
    · rw [h1, hl, nonceState_succ, hn]
    · rw [hl, ← range_map_snoc, ← hu, h2, hn]
  · intro st r ⟨hn, hu⟩ hstep
    rcases cipher_step_log_halt sb _ _ _ st r hstep with h | h
    · show r.nonces = _
      rw [h]
      exact hu
    · have hl : r.nonces.length = st.used.length + 1 := by rw [h]; simp
      show r.nonces = _
      rw [hl, ← range_map_snoc, ← hu, h, hn]

/-! ## The small secretbox satisfies what is assumed -/

theorem toySodium_easyOK : toySodium.EasyOK where
  seal_length m n k := by
    simp [toySodium, toyTag, Nat.add_comm]
  open_seal m n k := by
    have hl : (toyTag m n k).val.length = crypto_secretbox_MACBYTES := (toyTag m n k).property
    have h1 : crypto_secretbox_MACBYTES ≤ ((toyTag m n k).val ++ m).length := by
      rw [List.length_append, hl]
      omega
    simp only [toySodium, List.take_left' hl, List.drop_left' hl, h1, true_and, if_true]

theorem toySodium_openEasyLength : toySodium.OpenEasyLength := by
  intro c n k m h
  simp only [toySodium] at h
  split at h
  · rename_i hc
    cases h
    rw [List.length_drop]
    omega
  · cases h

theorem toySodium_detachedOK : toySodium.DetachedOK where
  seal_length m n k := rfl
  open_seal m n k := by simp [toySodium]

theorem toySodium_openDetachedLength : toySodium.OpenDetachedLength := by
  intro c mac n k m h
  simp only [toySodium] at h
  split at h
  · cases h
    rfl
  · cases h

/-! ## Lengths of containers -/

theorem nchunks_mul_ge {r : Nat} (hr : 0 < r) (len : Nat) : len ≤ nchunks r len * r := by
  unfold nchunks
  have h1 := Nat.div_add_mod (len + r - 1) r
  have h2 := Nat.mod_lt (len + r - 1) hr
  rw [Nat.mul_comm] at h1
  omega

theorem chunks_cons {r : Nat} (hr : 0 < r) (p : Bytes) (hp : p ≠ []) :
    chunks r p = p.take r :: chunks r (p.drop r) := by
  have hlen : 0 < p.length := List.length_pos.mpr hp
  simp only [chunks, nchunks_pos hr hlen, range_map_succ, chunk_zero, List.length_drop]
  congr 2
  funext j
  exact chunk_succ r p j

theorem chunks_nil {r : Nat} (hr : 0 < r) : chunks r [] = [] := by
  simp [chunks, nchunks_zero hr]

theorem chunks_take_flatten {r : Nat} (hr : 0 < r) :
    ∀ (j : Nat) (p : Bytes), ((chunks r p).take j).flatten = p.take (j * r) := by
  intro j
  induction j with
  | zero => intro p; simp
  | succ j ih =>
    intro p
    by_cases hp : p = []
    · subst hp
      simp [chunks_nil hr]
    · have hmul : (j + 1) * r = r + j * r := by ring
      rw [chunks_cons hr p hp, List.take_succ_cons, List.flatten_cons, ih, hmul, List.take_add]

theorem recordsRFrom_length (sb : Sodium) (hsb : sb.EasyOK) (key : Key) :
    ∀ (k : Nat) (p : Bytes) (o : Nat), nchunks RLEN p.length = k →
      (recordsRFrom sb key o p).flatten.length
        = p.length + crypto_secretbox_MACBYTES * k := by
  intro k
  induction k with
  | zero =>
    intro p o h
    have hp : p = [] := List.length_eq_zero.mp (nchunks_eq_zero RLEN_pos h)
    subst hp
    simp [recordsRFrom_nil]
  | succ k ih =>
    intro p o h
    have hp : p ≠ [] := ne_nil_of_nchunks RLEN_pos h
    have hk := nchunks_drop RLEN_pos h
    rw [recordsRFrom_cons sb key o p hp, List.flatten_cons, List.length_append,
      ih (p.drop RLEN) (o + 1) hk, recordR, hsb.seal_length, List.length_take,
      List.length_drop]
    have : crypto_secretbox_MACBYTES * (k + 1)
        = crypto_secretbox_MACBYTES * k + crypto_secretbox_MACBYTES := by ring
    omega

theorem recordsDFrom_length (sb : Sodium) (hsb : sb.DetachedOK) (key : Key)
    (rnd : Nat → Nonce) :
    ∀ (k : Nat) (p : Bytes) (o : Nat), nchunks BUFSIZE p.length = k →
      (recordsDFrom sb key rnd o p).flatten.length
        = p.length + (crypto_secretbox_NONCEBYTES + crypto_secretbox_MACBYTES) * k := by
  intro k
  induction k with
  | zero =>
    intro p o h
    have hp : p = [] := List.length_eq_zero.mp (nchunks_eq_zero BUFSIZE_pos h)
    subst hp
    simp [recordsDFrom_nil]
  | succ k ih =>
    intro p o h
    have hp : p ≠ [] := ne_nil_of_nchunks BUFSIZE_pos h
    have hk := nchunks_drop BUFSIZE_pos h
    have h1 := (rnd o).property
    have h2 := (sb.secretbox_detached (p.take BUFSIZE) (rnd o).val key).2.property
    rw [recordsDFrom_cons sb key rnd o p hp, List.flatten_cons, List.length_append,
      ih (p.drop BUFSIZE) (o + 1) hk, recordD, List.length_append, List.length_append,
      hsb.seal_length, List.length_take, List.length_drop, h1, h2]
    have : (crypto_secretbox_NONCEBYTES + crypto_secretbox_MACBYTES) * (k + 1)
        = (crypto_secretbox_NONCEBYTES + crypto_secretbox_MACBYTES) * k
          + (crypto_secretbox_NONCEBYTES + crypto_secretbox_MACBYTES) := by ring
    omega

theorem cipher_encrypt_records (sb : Sodium) (hsb : sb.EasyOK) (key : Key) (p fout : Bytes) :
    cipher sb ⟨⟨p, false⟩, fout, true, key⟩
      = some ⟨fout ++ (recordsR sb key p).flatten, .success⟩ := by
  have := cipher_enc_reaches sb hsb key _ p 0 false fout [] rfl
  rw [recordsRFrom_zero] at this
  exact cipher_enc_eq sb key _ _ _ _ this

/-! ## The claims -/

/-- C1: Variant R round trip. For every plaintext `p` (of any length, the multiples of
1 MiB - 16 and their neighbours included) and every key, `cipher` in encrypt mode writes the
chunk records of `p` after what the output file already holds, and `cipher` in decrypt mode
on these records ends without error and writes exactly `p`, provided that opening a sealed
message gives the message back and a sealed message is 16 bytes longer than the message. -/
theorem C1_variant_R_round_trip (sb : Sodium) (hsb : sb.EasyOK) (key : Key) (p fout : Bytes) :
    cipher sb ⟨⟨p, false⟩, fout, true, key⟩
      = some ⟨fout ++ (recordsR sb key p).flatten, .success⟩ ∧
    cipher sb ⟨⟨(recordsR sb key p).flatten, false⟩, [], false, key⟩
      = some ⟨p, .success⟩ := by
  constructor
  · exact cipher_encrypt_records sb hsb key p fout
  · have := cipher_dec_reaches sb hsb key _ p 0 false [] [] rfl
    rw [recordsRFrom_zero, List.nil_append] at this
    exact cipher_dec_eq sb key _ _ _ _ this

/-- Witness of C1: the round trip of a plaintext of RLEN + 1 bytes (two chunks) with the
small secretbox. -/
theorem C1_variant_R_round_trip_witness :
    toySodium.EasyOK ∧
    cipher toySodium ⟨⟨(recordsR toySodium zeroKey (List.replicate (RLEN + 1) 7)).flatten,
      false⟩, [], false, zeroKey⟩ = some ⟨List.replicate (RLEN + 1) 7, .success⟩ :=
  ⟨toySodium_easyOK,
    (C1_variant_R_round_trip toySodium toySodium_easyOK zeroKey
      (List.replicate (RLEN + 1) 7) []).2⟩

theorem ankh_encrypt_eq (sb : Sodium) (t : Terminal) (opslimit memlimit : Nat) (salt : Salt)
    (key : Key) (p : Bytes)
    (hk : kdf sb t opslimit memlimit salt.val true true = .ok key) :
    ankh sb t opslimit memlimit salt p true
      = cipher sb ⟨⟨p, false⟩, salt.val, true, key⟩ := by
  have hS : crypto_pwhash_SALTBYTES ≠ 0 := by decide
  simp only [ankh, if_true, hk, fwrite_one hS, Nat.mul_one, List.nil_append,
    List.take_of_length_le (Nat.le_of_eq salt.property), ne_eq, not_true_eq_false, if_false]

theorem ankh_decrypt_eq (sb : Sodium) (t : Terminal) (opslimit memlimit : Nat) (rnd : Salt)
    (key : Key) (salt body : Bytes) (hs : salt.length = crypto_pwhash_SALTBYTES)
    (hk : kdf sb t opslimit memlimit salt true false = .ok key) :
    ankh sb t opslimit memlimit rnd (salt ++ body) false
      = cipher sb ⟨⟨body, false⟩, [], false, key⟩ := by
  have hS : crypto_pwhash_SALTBYTES ≠ 0 := by decide
  have hr : fread crypto_pwhash_SALTBYTES 1 ⟨salt ++ body, false⟩
      = (salt, 1, ⟨body, false⟩) := by
    rw [fread_item_full hS _ _ (by rw [List.length_append]; omega), List.take_left' hs,
      List.drop_left' hs]
  simp only [ankh, Bool.false_eq_true, if_false, hr, ne_eq, not_true_eq_false, hk]

/-- C6: Variant R container layout. When the key derivation gives `key`, `ankh` in encrypt
mode writes the salt (S bytes) followed by the chunk records of the plaintext `p` and nothing
else (no nonce); there are `ceil(L / (1 MiB - 16))` records, record `i` is the combined
secretbox output of plaintext chunk `i` and is 16 bytes longer than the chunk; the chunks are
the plaintext cut in order, every chunk but the last has exactly 1 MiB - 16 bytes, so every
record but the last has exactly 1 MiB and none exceeds 1 MiB; the container has
`S + L + 16 * ceil(L / (1 MiB - 16))` bytes. -/
theorem C6_variant_R_layout (sb : Sodium) (hsb : sb.EasyOK) (t : Terminal)
    (opslimit memlimit : Nat) (salt : Salt) (key : Key) (p : Bytes)
    (hk : kdf sb t opslimit memlimit salt.val true true = .ok key) :
    ankh sb t opslimit memlimit salt p true
      = some ⟨salt.val ++ (recordsR sb key p).flatten, .success⟩ ∧
    salt.val.length = crypto_pwhash_SALTBYTES ∧
    (recordsR sb key p).length = nchunks RLEN p.length ∧
    (p.length ≤ nchunks RLEN p.length * RLEN ∧
      ∀ i, i < nchunks RLEN p.length → i * RLEN < p.length) ∧
    (chunks RLEN p).flatten = p ∧
    (∀ i, i < nchunks RLEN p.length →
      (recordsR sb key p)[i]? = some (recordR sb key i (chunk RLEN p i)) ∧
      (recordR sb key i (chunk RLEN p i)).length = (chunk RLEN p i).length + 16 ∧
      (recordR sb key i (chunk RLEN p i)).length ≤ BUFSIZE ∧
      (i + 1 < nchunks RLEN p.length →
        (chunk RLEN p i).length = RLEN ∧
        (recordR sb key i (chunk RLEN p i)).length = BUFSIZE)) ∧
    (salt.val ++ (recordsR sb key p).flatten).length
      = crypto_pwhash_SALTBYTES + p.length + 16 * nchunks RLEN p.length := by
  have hadd := RLEN_add
  have hM : crypto_secretbox_MACBYTES = 16 := rfl
  refine ⟨?_, salt.property, ?_, ⟨nchunks_mul_ge RLEN_pos _, fun i hi =>
    lt_of_lt_nchunks RLEN_pos hi⟩, chunks_flatten RLEN_pos _ p rfl, ?_, ?_⟩
  · rw [ankh_encrypt_eq sb t opslimit memlimit salt key p hk]
    exact (cipher_encrypt_records sb hsb key p salt.val)
  · simp [recordsR]
  · intro i hi
    have hl : (recordR sb key i (chunk RLEN p i)).length = (chunk RLEN p i).length + 16 := by
      rw [recordR, hsb.seal_length, hM]
    have hle := chunk_length_le RLEN p i
    refine ⟨by simp [recordsR, hi], hl, by omega, fun hi1 => ?_⟩
    have hfull : (chunk RLEN p i).length = RLEN :=
      chunk_length_full (Nat.le_of_lt (lt_of_lt_nchunks RLEN_pos hi1))
    exact ⟨hfull, by omega⟩
  · rw [List.length_append, salt.property, ← recordsRFrom_zero,
      recordsRFrom_length sb hsb key _ p 0 rfl, hM]
    omega

/-- Witness of C6: the small secretbox, the passphrase typed twice at a terminal, and a
plaintext of RLEN + 1 bytes. -/
theorem C6_variant_R_layout_witness :
    toySodium.EasyOK ∧
    kdf toySodium toyTerminal 2 67108864 zeroSalt.val true true = .ok toyKey ∧
    ankh toySodium toyTerminal 2 67108864 zeroSalt (List.replicate (RLEN + 1) 7) true
      = some ⟨zeroSalt.val ++ (recordsR toySodium toyKey
          (List.replicate (RLEN + 1) 7)).flatten, .success⟩ :=
  ⟨toySodium_easyOK, rfl,
    (C6_variant_R_layout toySodium toySodium_easyOK toyTerminal 2 67108864 zeroSalt
      toyKey (List.replicate (RLEN + 1) 7) rfl).1⟩

/-- C9: Variant R does not detect truncation at a record boundary. For a plaintext `p` of
`k >= 1` chunks and every `j < k`, `cipher` in decrypt mode on the first `j` chunk records of
the container that encryption produced for `p` ends without error and writes the first `j`
plaintext chunks, which are the first `j * (1 MiB - 16)` bytes of `p` and fewer bytes than
`p` has. -/
theorem C9_variant_R_truncation (sb : Sodium) (hsb : sb.EasyOK) (key : Key) (p salt : Bytes)
    (j : Nat) (hj : j < nchunks RLEN p.length) :
    cipher sb ⟨⟨p, false⟩, salt, true, key⟩
      = some ⟨salt ++ (recordsR sb key p).flatten, .success⟩ ∧
    cipher sb ⟨⟨((recordsR sb key p).take j).flatten, false⟩, [], false, key⟩
      = some ⟨((chunks RLEN p).take j).flatten, .success⟩ ∧
    ((chunks RLEN p).take j).flatten = p.take (j * RLEN) ∧
    (p.take (j * RLEN)).length < p.length := by
  refine ⟨(cipher_encrypt_records sb hsb key p salt), ?_, chunks_take_flatten RLEN_pos j p, ?_⟩
  · have := cipher_dec_truncated sb hsb key j p 0 false [] [] hj
    rw [recordsRFrom_zero, List.nil_append, ← chunks_take_flatten RLEN_pos j p] at this
    exact cipher_dec_eq sb key _ _ _ _ this
  · have := lt_of_lt_nchunks RLEN_pos hj
    rw [List.length_take]
    omega

/-- Witness of C9: a plaintext of RLEN + 1 bytes has two chunks; the container cut after the
first record decrypts to the first chunk. -/
theorem C9_variant_R_truncation_witness :
    toySodium.EasyOK ∧ 1 < nchunks RLEN (List.replicate (RLEN + 1) (7 : Byte)).length ∧
    cipher toySodium ⟨⟨((recordsR toySodium zeroKey (List.replicate (RLEN + 1) 7)).take 1).flatten,
      false⟩, [], false, zeroKey⟩
      = some ⟨((chunks RLEN (List.replicate (RLEN + 1) 7)).take 1).flatten, .success⟩ :=
  have h : 1 < nchunks RLEN (List.replicate (RLEN + 1) (7 : Byte)).length := by
    rw [List.length_replicate, nchunks, RLEN_eq]
    norm_num
  ⟨toySodium_easyOK, h,
    (C9_variant_R_truncation toySodium toySodium_easyOK zeroKey (List.replicate (RLEN + 1) 7)
      [] 1 h).2.1⟩

/-- C5: Variant R nonce sequence. Every run of `cipher`, in either mode and with any
secretbox, ends, and the nonces handed to the secretbox, in order, are `nonceR 0`,
`nonceR 1`, ...: the nonce for chunk `i` is the zero nonce of 24 bytes incremented `i + 1`
times, that is the nonce for chunk 0 incremented `i` times; read as a little-endian number
it is `i + 1` modulo `2 ^ 192`; in a session of fewer than `2 ^ 192` chunks no nonce occurs
twice; and two sessions, whatever their modes, use the same nonce at the same chunk index. -/
theorem C5_variant_R_nonce_sequence (sb sb2 : Sodium) (ci ci2 : cipher_info) :
    ∃ s s2, cipher_session sb ci = some s ∧ cipher_session sb2 ci2 = some s2 ∧
      s.nonces = (List.range s.nonces.length).map nonceR ∧
      nonceR 0 = sodium_increment (List.replicate 24 0) ∧
      (∀ i, nonceR i = sodium_increment^[i] (nonceR 0) ∧ (nonceR i).length = 24 ∧
        leValue (nonceR i) = (i + 1) % 2 ^ 192) ∧
      (s.nonces.length < 2 ^ 192 → s.nonces.Nodup) ∧
      (∀ i, i < s.nonces.length → i < s2.nonces.length → s.nonces[i]? = s2.nonces[i]?) := by
  obtain ⟨s, hs, hlog⟩ := cipher_session_log sb ci
  obtain ⟨s2, hs2, hlog2⟩ := cipher_session_log sb2 ci2
  refine ⟨s, s2, hs, hs2, hlog, rfl, ?_, ?_, ?_⟩
  · intro i
    refine ⟨nonceR_iterate i, ?_, ?_⟩
    · rw [nonceR_eq, ← nonceState_succ, nonceState_length]
      rfl
    · rw [nonceR_eq, ← nonceState_succ, leValue_nonceState]
  · intro hN
    rw [hlog]
    refine List.Nodup.map_on ?_ (List.nodup_range _)
    intro x hx y hy hxy
    rw [List.mem_range] at hx hy
    exact nonceR_injOn x y (by omega) (by omega) hxy
  · intro i hi hi2
    rw [hlog, hlog2]
    simp [hi, hi2]

theorem ankhnempem_encrypt_eq (sb : Sodium) (t : Terminal) (salt : Salt) (rnd : Nat → Nonce)
    (key : Key) (p : Bytes)
    (hk : kdf sb t sb.OPSLIMIT_INTERACTIVE sb.MEMLIMIT_INTERACTIVE salt.val true true
      = .ok key) :
    ankhnempem sb t salt rnd p true = encrypt sb rnd ⟨⟨p, false⟩, salt.val, true, key⟩ := by
  have hS : crypto_pwhash_SALTBYTES ≠ 0 := by decide
  simp only [ankhnempem, if_true, hk, fwrite_one hS, Nat.mul_one, List.nil_append,
    List.take_of_length_le (Nat.le_of_eq salt.property), ne_eq, not_true_eq_false, if_false]

theorem ankhnempem_decrypt_eq (sb : Sodium) (t : Terminal) (rndSalt : Salt)
    (rnd : Nat → Nonce) (key : Key) (salt body : Bytes)
    (hs : salt.length = crypto_pwhash_SALTBYTES)
    (hk : kdf sb t sb.OPSLIMIT_INTERACTIVE sb.MEMLIMIT_INTERACTIVE salt true false
      = .ok key) :
    ankhnempem sb t rndSalt rnd (salt ++ body) false
      = decrypt sb ⟨⟨body, false⟩, [], false, key⟩ := by
  have hS : crypto_pwhash_SALTBYTES ≠ 0 := by decide
  have hr : fread crypto_pwhash_SALTBYTES 1 ⟨salt ++ body, false⟩
      = (salt, 1, ⟨body, false⟩) := by
    rw [fread_item_full hS _ _ (by rw [List.length_append, hs]; exact Nat.le_add_right _ _),
      List.take_left' hs, List.drop_left' hs]
  simp only [ankhnempem, Bool.false_eq_true, if_false, hr, ne_eq, not_true_eq_false, hk]

theorem encrypt_records (sb : Sodium) (hsb : sb.DetachedOK) (rnd : Nat → Nonce) (key : Key)
    (p fout : Bytes) :
    encrypt sb rnd ⟨⟨p, false⟩, fout, true, key⟩
      = some ⟨fout ++ (recordsD sb key rnd p).flatten, .success⟩ := by
  have := encrypt_reaches sb hsb rnd key _ p 0 false fout rfl
  rw [recordsDFrom_zero] at this
  exact encrypt_eq sb rnd key _ _ _ _ this

/-- C7: Variant D container layout. When the key derivation gives `key`, `ankhnempem` in
encrypt mode writes the salt (S bytes) followed by `ceil(L / 1 MiB)` chunk records in
plaintext order; record `i` is the 24-byte nonce drawn for chunk `i`, then the 16-byte
detached tag, then the ciphertext, which is as long as plaintext chunk `i`; every chunk but
the last has exactly 1 MiB; the container has `S + L + 40 * ceil(L / 1 MiB)` bytes. -/
theorem C7_variant_D_layout (sb : Sodium) (hsb : sb.DetachedOK) (t : Terminal) (salt : Salt)
    (rnd : Nat → Nonce) (key : Key) (p : Bytes)
    (hk : kdf sb t sb.OPSLIMIT_INTERACTIVE sb.MEMLIMIT_INTERACTIVE salt.val true true
      = .ok key) :
    ankhnempem sb t salt rnd p true
      = some ⟨salt.val ++ (recordsD sb key rnd p).flatten, .success⟩ ∧
    salt.val.length = crypto_pwhash_SALTBYTES ∧
    (recordsD sb key rnd p).length = nchunks BUFSIZE p.length ∧
    (p.length ≤ nchunks BUFSIZE p.length * BUFSIZE ∧
      ∀ i, i < nchunks BUFSIZE p.length → i * BUFSIZE < p.length) ∧
    (chunks BUFSIZE p).flatten = p ∧
    (∀ i, i < nchunks BUFSIZE p.length →
      (recordsD sb key rnd p)[i]? = some (recordD sb key (rnd i) (chunk BUFSIZE p i)) ∧
      recordD sb key (rnd i) (chunk BUFSIZE p i)
        = (rnd i).val ++ (sb.secretbox_detached (chunk BUFSIZE p i) (rnd i).val key).2.val
          ++ (sb.secretbox_detached (chunk BUFSIZE p i) (rnd i).val key).1 ∧
      (rnd i).val.length = 24 ∧
      (sb.secretbox_detached (chunk BUFSIZE p i) (rnd i).val key).2.val.length = 16 ∧
      (sb.secretbox_detached (chunk BUFSIZE p i) (rnd i).val key).1.length
        = (chunk BUFSIZE p i).length ∧
      (i + 1 < nchunks BUFSIZE p.length → (chunk BUFSIZE p i).length = BUFSIZE)) ∧
    (salt.val ++ (recordsD sb key rnd p).flatten).length
      = crypto_pwhash_SALTBYTES + p.length + 40 * nchunks BUFSIZE p.length := by
  refine ⟨?_, salt.property, ?_, ⟨nchunks_mul_ge BUFSIZE_pos _, fun i hi =>
    lt_of_lt_nchunks BUFSIZE_pos hi⟩, chunks_flatten BUFSIZE_pos _ p rfl, ?_, ?_⟩
  · rw [ankhnempem_encrypt_eq sb t salt rnd key p hk]
    exact encrypt_records sb hsb rnd key p salt.val
  · simp [recordsD]
  · intro i hi
    refine ⟨by simp [recordsD, hi], rfl, (rnd i).property,
      (sb.secretbox_detached _ _ _).2.property, hsb.seal_length _ _ _, fun hi1 => ?_⟩
    exact chunk_length_full (Nat.le_of_lt (lt_of_lt_nchunks BUFSIZE_pos hi1))
  · have h40 : crypto_secretbox_NONCEBYTES + crypto_secretbox_MACBYTES = 40 := rfl
    rw [List.length_append, salt.property, ← recordsDFrom_zero,
      recordsDFrom_length sb hsb key rnd _ p 0 rfl, h40, Nat.add_assoc]

/-- Witness of C7: the small secretbox, the passphrase typed twice at a terminal, and a
plaintext of 1 MiB + 1 bytes. -/
theorem C7_variant_D_layout_witness :
    toySodium.DetachedOK ∧
    kdf toySodium toyTerminal toySodium.OPSLIMIT_INTERACTIVE toySodium.MEMLIMIT_INTERACTIVE
      zeroSalt.val true true = .ok toyKey ∧
    ankhnempem toySodium toyTerminal zeroSalt countNonce (List.replicate (BUFSIZE + 1) 7) true
      = some ⟨zeroSalt.val ++ (recordsD toySodium toyKey countNonce
          (List.replicate (BUFSIZE + 1) 7)).flatten, .success⟩ :=
  ⟨toySodium_detachedOK, rfl,
    (C7_variant_D_layout toySodium toySodium_detachedOK toyTerminal zeroSalt countNonce
      toyKey (List.replicate (BUFSIZE + 1) 7) rfl).1⟩

/-- C2: Variant D round trip, as the code behaves. `encrypt` writes the chunk records of the
plaintext `p`; `decrypt` on these records writes exactly `p`, and ends without error when
the length of `p` is not a multiple of 1 MiB; when the length is a multiple of 1 MiB (zero
included) the loop is entered once more at the end of the input and `decrypt` ends with
`errx(1, "error reading nonce")`. -/
theorem C2_variant_D_round_trip (sb : Sodium) (hsb : sb.DetachedOK) (rnd : Nat → Nonce)
    (key : Key) (p fout : Bytes) :
    encrypt sb rnd ⟨⟨p, false⟩, fout, true, key⟩
      = some ⟨fout ++ (recordsD sb key rnd p).flatten, .success⟩ ∧
    decrypt sb ⟨⟨(recordsD sb key rnd p).flatten, false⟩, [], false, key⟩
      = some ⟨p, if p.length % BUFSIZE = 0 then .errx .errorReadingNonce else .success⟩ := by
  refine ⟨encrypt_records sb hsb rnd key p fout, ?_⟩
  have := decrypt_reaches_roundtrip sb hsb rnd key _ p 0 [] rfl
  rw [recordsDFrom_zero, List.nil_append] at this
  exact decrypt_eq sb key _ _ _ _ this

/-- Witness of C2: a plaintext of exactly 1 MiB is written back in full by `decrypt`, which
then ends with the error of a missing nonce. -/
theorem C2_variant_D_round_trip_witness :
    toySodium.DetachedOK ∧
    decrypt toySodium ⟨⟨(recordsD toySodium zeroKey countNonce
        (List.replicate BUFSIZE 7)).flatten, false⟩, [], false, zeroKey⟩
      = some ⟨List.replicate BUFSIZE 7, .errx .errorReadingNonce⟩ := by
  refine ⟨toySodium_detachedOK, ?_⟩
  have h := (C2_variant_D_round_trip toySodium toySodium_detachedOK countNonce zeroKey
    (List.replicate BUFSIZE 7) []).2
  rw [List.length_replicate, Nat.mod_self, if_pos rfl] at h
  exact h

theorem cipher_empty (sb : Sodium) (enc : Bool) (key : Key) (fout : Bytes) :
    cipher sb ⟨⟨[], false⟩, fout, enc, key⟩ = some ⟨fout, .success⟩ := by
  cases enc with
  | true =>
    exact cipher_enc_eq sb key _ _ _ [] (Reaches.of_halt (cipher_step_empty sb true key _ _ _ _ _))
  | false =>
    exact cipher_dec_eq sb key _ _ _ [] (Reaches.of_halt (cipher_step_empty sb false key _ _ _ _ _))

/-- C3: empty input. In both variants encrypting a zero-length plaintext gives a container
that is exactly the salt. Variant R decrypts this container without error to a zero-length
output. Variant D does not: `decrypt` enters its loop, finds no nonce and ends with
`errx(1, "error reading nonce")`. -/
theorem C3_empty_input (sb : Sodium) (te td : Terminal) (opslimit memlimit : Nat)
    (salt : Salt) (rnd : Nat → Nonce) (k1 k2 k3 k4 : Key)
    (h1 : kdf sb te opslimit memlimit salt.val true true = .ok k1)
    (h2 : kdf sb td opslimit memlimit salt.val true false = .ok k2)
    (h3 : kdf sb te sb.OPSLIMIT_INTERACTIVE sb.MEMLIMIT_INTERACTIVE salt.val true true
      = .ok k3)
    (h4 : kdf sb td sb.OPSLIMIT_INTERACTIVE sb.MEMLIMIT_INTERACTIVE salt.val true false
      = .ok k4) :
    ankh sb te opslimit memlimit salt [] true = some ⟨salt.val, .success⟩ ∧
    ankh sb td opslimit memlimit salt salt.val false = some ⟨[], .success⟩ ∧
    ankhnempem sb te salt rnd [] true = some ⟨salt.val, .success⟩ ∧
    ankhnempem sb td salt rnd salt.val false = some ⟨[], .errx .errorReadingNonce⟩ := by
  refine ⟨?_, ?_, ?_, ?_⟩
  · rw [ankh_encrypt_eq sb te opslimit memlimit salt k1 [] h1]
    exact cipher_empty sb true k1 salt.val
  · have := ankh_decrypt_eq sb td opslimit memlimit salt k2 salt.val [] salt.property h2
    rw [List.append_nil] at this
    rw [this]
    exact cipher_empty sb false k2 []
  · rw [ankhnempem_encrypt_eq sb te salt rnd k3 [] h3]
    exact encrypt_eq sb rnd k3 _ _ _ _ (Reaches.of_halt (encrypt_step_empty sb rnd k3 _ _ _))
  · have := ankhnempem_decrypt_eq sb td salt rnd k4 salt.val [] salt.property h4
    rw [List.append_nil] at this
    rw [this]
    exact decrypt_eq sb k4 _ _ _ _
      (Reaches.of_halt (decrypt_step_short_nonce sb k4 [] false [] (by decide)))

/-- Witness of C3: the small secretbox with the passphrase typed at a terminal; decrypting
the salt-only container with `ankhnempem` ends with the error of a missing nonce. -/
theorem C3_empty_input_witness :
    kdf toySodium toyTerminal 2 67108864 zeroSalt.val true true = .ok toyKey ∧
    kdf toySodium toyTerminal 2 67108864 zeroSalt.val true false = .ok toyKey ∧
    ankhnempem toySodium toyTerminal zeroSalt countNonce [] true
      = some ⟨zeroSalt.val, .success⟩ ∧
    ankhnempem toySodium toyTerminal zeroSalt countNonce zeroSalt.val false
      = some ⟨[], .errx .errorReadingNonce⟩ :=
  ⟨rfl, rfl,
    (C3_empty_input toySodium toyTerminal toyTerminal 2 67108864 zeroSalt countNonce
      toyKey toyKey toyKey toyKey rfl rfl rfl rfl).2.2⟩

theorem decrypt_reaches_reject (sb : Sodium) (key : Key) (n mac after fout : Bytes)
    (hn : n.length = crypto_secretbox_NONCEBYTES) (hm : mac.length = crypto_secretbox_MACBYTES)
    (ha : after ≠ [])
    (hbad : sb.secretbox_open_detached (after.take BUFSIZE) mac n key = none) :
    Reaches (decrypt_step sb key BUFSIZE) ⟨⟨n ++ mac ++ after, false⟩, fout⟩
      ⟨fout, .errx .invalidMessageData⟩ := by
  refine Reaches.of_halt ?_
  rw [List.append_assoc, decrypt_step_fields sb key n mac after false fout hn hm ha, hbad]

/-- C4: fail-fast authentication. Variant R: when the chunks `0 .. i-1` of the container
(read 1 MiB at a time) open to `msR 0 .. msR (i-1)` and chunk `i` does not open, `cipher`
ends with `errx(1, "invalid message data")` and the output is exactly the plaintexts of the
chunks before `i`. Variant D: when the records before the failing one have full
ciphertexts and open to `ms`, and the next record (nonce `n`, tag `mac`, ciphertext the next
1 MiB of `after`) does not open, `decrypt` ends with the same error and the output is
exactly `ms` concatenated. The diagnostic is the specification's AuthenticationFailure. -/
theorem C4_fail_fast_authentication (sb : Sodium) (hle : sb.OpenEasyLength)
    (hld : sb.OpenDetachedLength) (key : Key)
    (b : Bytes) (i : Nat) (msR : Nat → Bytes)
    (hi : i < nchunks BUFSIZE b.length)
    (hokR : ∀ j, j < i →
      sb.secretbox_open_easy (chunk BUFSIZE b j) (nonceR j) key = some (msR j))
    (hbadR : sb.secretbox_open_easy (chunk BUFSIZE b i) (nonceR i) key = none)
    (rs : List RecD) (ms : List Bytes) (hokD : List.Forall₂ (RecD.OpensFull sb key) rs ms)
    (n mac after : Bytes) (hn : n.length = 24) (hmac : mac.length = 16) (hafter : after ≠ [])
    (hbadD : sb.secretbox_open_detached (after.take BUFSIZE) mac n key = none) :
    cipher sb ⟨⟨b, false⟩, [], false, key⟩
      = some ⟨((List.range i).map msR).flatten, .errx .invalidMessageData⟩ ∧
    decrypt sb ⟨⟨(rs.map RecD.bytes).flatten ++ (n ++ mac ++ after), false⟩, [], false, key⟩
      = some ⟨ms.flatten, .errx .invalidMessageData⟩ ∧
    Msg.errorClass .invalidMessageData = .AuthenticationFailure := by
  refine ⟨?_, ?_, rfl⟩
  · have := cipher_dec_fails sb hle key i b 0 false [] [] msR hi
      (by simpa using hokR) (by simpa using hbadR)
    rw [List.nil_append] at this
    exact cipher_dec_eq sb key _ _ _ _ this
  · refine decrypt_eq sb key _ _ _ _ ?_
    refine decrypt_reaches_prefix sb key _ _ rs ms (opensFull_length sb hld key hokD) [] ?_
    exact decrypt_reaches_reject sb key n mac after _ hn hmac hafter hbadD

theorem toySodium_badMac (c n : Bytes) (k : Key) :
    toySodium.secretbox_open_detached c badMac n k = none := by
  show (if badMac = (toyTag c n k).val then some c else none) = none
  rw [if_neg]
  intro h
  have h0 := congrArg (fun l => l[0]?) h
  have h1 := congrArg (fun l => l[1]?) h
  simp [badMac, toyTag, crypto_secretbox_MACBYTES, List.replicate_succ] at h0 h1
  rw [← h0] at h1
  exact absurd h1 (by decide)

theorem witnessRecordD_opens :
    witnessRecordD.OpensFull toySodium zeroKey (List.replicate BUFSIZE 7) :=
  ⟨(countNonce 0).property, (toyTag _ _ _).property, List.length_replicate _ _,
    toySodium_detachedOK.open_seal (List.replicate BUFSIZE 7) (countNonce 0).val zeroKey⟩

theorem witnessContainerR_record_length :
    (recordR toySodium zeroKey 0 (List.replicate RLEN 7)).length = BUFSIZE := by
  rw [recordR, toySodium_easyOK.seal_length, List.length_replicate, RLEN_add]

theorem length_append_singleton (x : Bytes) (v : Byte) (n : Nat) (hx : x.length = n) :
    (x ++ [v]).length = n + 1 := by
  rw [List.length_append, hx, List.length_singleton]

theorem witnessContainerR_length : witnessContainerR.length = BUFSIZE + 1 :=
  length_append_singleton _ 0 BUFSIZE witnessContainerR_record_length

theorem witnessContainerR_chunks : 1 < nchunks BUFSIZE witnessContainerR.length := by
  rw [witnessContainerR_length, nchunks_succ_full BUFSIZE_pos]
  exact Nat.lt_succ_self 1

theorem witnessContainerR_opens (j : Nat) (hj : j < 1) :
    toySodium.secretbox_open_easy (chunk BUFSIZE witnessContainerR j) (nonceR j) zeroKey
      = some (List.replicate RLEN 7) := by
  have hj0 : j = 0 := Nat.lt_one_iff.mp hj
  subst hj0
  rw [chunk_zero, witnessContainerR, List.take_left' witnessContainerR_record_length, recordR]
  exact toySodium_easyOK.open_seal _ _ _

theorem witnessContainerR_rejects :
    toySodium.secretbox_open_easy (chunk BUFSIZE witnessContainerR 1) (nonceR 1) zeroKey
      = none := by
  have hc : chunk BUFSIZE witnessContainerR 1 = [0] := by
    rw [chunk, Nat.one_mul, witnessContainerR,
      List.drop_left' witnessContainerR_record_length]
    exact List.take_of_length_le (Nat.succ_le_of_lt BUFSIZE_pos)
  rw [hc]
  simp only [toySodium]
  rw [if_neg]
  intro h
  exact absurd h.1 (by decide)

/-- Witness of C4: under the small secretbox, a Variant R container whose first record is
authentic and whose second chunk is one stray byte, and a Variant D container whose first
record is authentic and whose second record carries a tag that is no tag. -/
theorem C4_fail_fast_authentication_witness :
    toySodium.OpenEasyLength ∧ toySodium.OpenDetachedLength ∧
    cipher toySodium ⟨⟨witnessContainerR, false⟩, [], false, zeroKey⟩
      = some ⟨((List.range 1).map (fun _ => List.replicate RLEN 7)).flatten,
          .errx .invalidMessageData⟩ ∧
    decrypt toySodium ⟨⟨([witnessRecordD].map RecD.bytes).flatten
        ++ ((countNonce 1).val ++ badMac ++ [9]), false⟩, [], false, zeroKey⟩
      = some ⟨[List.replicate BUFSIZE 7].flatten, .errx .invalidMessageData⟩ :=
  have h := C4_fail_fast_authentication toySodium toySodium_openEasyLength
    toySodium_openDetachedLength zeroKey witnessContainerR 1
    (fun _ => List.replicate RLEN 7) witnessContainerR_chunks witnessContainerR_opens
    witnessContainerR_rejects [witnessRecordD] [List.replicate BUFSIZE 7]
    (List.Forall₂.cons witnessRecordD_opens List.Forall₂.nil)
    (countNonce 1).val badMac [9] (countNonce 1).property rfl (List.cons_ne_nil _ _)
    (toySodium_badMac _ _ _)
  ⟨toySodium_openEasyLength, toySodium_openDetachedLength, h.1, h.2.1⟩

theorem decrypt_reaches_partial (sb : Sodium) (key : Key) (tail fout : Bytes)
    (h1 : 1 ≤ tail.length) (h2 : tail.length ≤ 39) :
    Reaches (decrypt_step sb key BUFSIZE) ⟨⟨tail, false⟩, fout⟩
      ⟨fout, .errx (if tail.length < 24 then .errorReadingNonce else .errorReadingMac)⟩ := by
  refine Reaches.of_halt ?_
  by_cases h : tail.length < 24
  · rw [if_pos h]
    exact decrypt_step_short_nonce sb key tail false fout h
  · rw [if_neg h]
    refine decrypt_step_short_mac sb key tail false fout ?_ ?_
    · show 24 ≤ tail.length
      omega
    · show tail.length < 24 + 16
      omega

/-- C8 (amended): Variant D malformed framing. For every input that consists of zero or
more chunk records with a full 1 MiB ciphertext, each of which opens under the key, followed
by 1 to 39 more bytes (a partial nonce, or a nonce and a partial tag), `decrypt` writes the
plaintexts of those records and nothing for the incomplete record, and ends with
`errx(1, "error reading nonce")` when fewer than 24 bytes remain and with
`errx(1, "error reading mac")` otherwise; both are the specification's CorruptContainer. -/
theorem C8_variant_D_partial_field (sb : Sodium) (hld : sb.OpenDetachedLength) (key : Key)
    (rs : List RecD) (ms : List Bytes) (hok : List.Forall₂ (RecD.OpensFull sb key) rs ms)
    (tail : Bytes) (h1 : 1 ≤ tail.length) (h2 : tail.length ≤ 39) :
    decrypt sb ⟨⟨(rs.map RecD.bytes).flatten ++ tail, false⟩, [], false, key⟩
      = some ⟨ms.flatten,
          .errx (if tail.length < 24 then .errorReadingNonce else .errorReadingMac)⟩ ∧
    Msg.errorClass (if tail.length < 24 then .errorReadingNonce else .errorReadingMac)
      = .CorruptContainer := by
  refine ⟨?_, ?_⟩
  · refine decrypt_eq sb key _ _ _ _ ?_
    refine decrypt_reaches_prefix sb key _ _ rs ms (opensFull_length sb hld key hok) [] ?_
    exact decrypt_reaches_partial sb key tail _ h1 h2
  · by_cases h : tail.length < 24
    · rw [if_pos h]
      rfl
    · rw [if_neg h]
      rfl

/-- Witness of C8: under the small secretbox, an authentic full record followed by one
stray byte. -/
theorem C8_variant_D_partial_field_witness :
    toySodium.OpenDetachedLength ∧
    decrypt toySodium ⟨⟨([witnessRecordD].map RecD.bytes).flatten ++ [0], false⟩, [], false,
        zeroKey⟩
      = some ⟨[List.replicate BUFSIZE 7].flatten,
          .errx (if ([0] : Bytes).length < 24 then .errorReadingNonce
            else .errorReadingMac)⟩ :=
  ⟨toySodium_openDetachedLength,
    (C8_variant_D_partial_field toySodium toySodium_openDetachedLength zeroKey
      [witnessRecordD] [List.replicate BUFSIZE 7]
      (List.Forall₂.cons witnessRecordD_opens List.Forall₂.nil) [0]
      (Nat.le_refl 1) (by decide)).1⟩

theorem decrypt_rejects_record (sb : Sodium) (key : Key) (r : RecD) (tail : Bytes)
    (hn : r.n.length = crypto_secretbox_NONCEBYTES)
    (hm : r.mac.length = crypto_secretbox_MACBYTES) (hc : r.c ≠ [])
    (hbad : ∀ c, sb.secretbox_open_detached c r.mac r.n key = none) :
    decrypt sb ⟨⟨r.bytes ++ tail, false⟩, [], false, key⟩
      = some ⟨[], .errx .invalidMessageData⟩ := by
  refine decrypt_eq sb key _ _ _ _ ?_
  have e : r.bytes ++ tail = r.n ++ r.mac ++ (r.c ++ tail) := by
    simp only [RecD.bytes, List.append_assoc]
  rw [e]
  refine decrypt_reaches_reject sb key r.n r.mac (r.c ++ tail) [] hn hm ?_ (hbad _)
  intro h0
  exact hc (List.append_eq_nil.mp h0).1

/-- Counterexample to C8 as stated: an input of the stated shape (one chunk record with a
24-byte nonce, a 16-byte tag and a full 1 MiB ciphertext, then one more byte) on which
`decrypt` does not end with CorruptContainer: the tag of the record does not verify, so the
run ends with `errx(1, "invalid message data")`, the specification's
AuthenticationFailure. -/
theorem C8_counterexample :
    (countNonce 0).val.length = 24 ∧ badMac.length = 16 ∧
    (List.replicate BUFSIZE (7 : Byte)).length = BUFSIZE ∧
    decrypt toySodium
      ⟨⟨RecD.bytes ⟨(countNonce 0).val, badMac, List.replicate BUFSIZE 7⟩ ++ [0], false⟩,
        [], false, zeroKey⟩ = some ⟨[], .errx .invalidMessageData⟩ ∧
    Msg.errorClass .invalidMessageData ≠ .CorruptContainer :=
  ⟨(countNonce 0).property, rfl, List.length_replicate _ _,
    decrypt_rejects_record toySodium zeroKey
      ⟨(countNonce 0).val, badMac, List.replicate BUFSIZE 7⟩ [0] (countNonce 0).property rfl
      (fun h => absurd (congrArg List.length h)
        (by rw [List.length_replicate, List.length_nil]
            exact Nat.pos_iff_ne_zero.mp BUFSIZE_pos))
      (fun c => toySodium_badMac c _ _),
    by decide⟩

theorem chunk_length (r : Nat) (p : Bytes) (j : Nat) :
    (chunk r p j).length = min r (p.length - j * r) := by
  simp [chunk]

theorem chunk_last_length {r : Nat} (hr : 0 < r) (p : Bytes) (k : Nat)
    (hk : nchunks r p.length = k + 1) (hmod : p.length % r ≠ 0) :
    0 < (chunk r p k).length ∧ (chunk r p k).length < r := by
  have h1 : k * r < p.length := lt_of_lt_nchunks hr (by omega)
  have h2 : p.length ≤ (k + 1) * r := by
    have := nchunks_mul_ge hr p.length
    rw [hk] at this
    exact this
  have h3 : p.length ≠ (k + 1) * r := by
    intro h
    rw [h, Nat.mul_mod_left] at hmod
    exact hmod rfl
  have h4 : (k + 1) * r = k * r + r := by ring
  rw [chunk_length]
  omega

theorem swap_lt {a b i k : Nat} (ha : a < k) (hb : b < k) (hi : i < k) :
    Equiv.swap a b i < k := by
  rw [Equiv.swap_apply_def]
  split_ifs <;> assumption

theorem chunk_full_of_lt {r : Nat} (hr : 0 < r) (p : Bytes) (k i : Nat)
    (hk : nchunks r p.length = k + 1) (hi : i < k) : (chunk r p i).length = r := by
  have h1 : (i + 1) * r < p.length := lt_of_lt_nchunks hr (by omega)
  exact chunk_length_full (Nat.le_of_lt h1)

/-- Sealed full records at the head of the input, in any order and with any nonces, are
opened and written in the order in which they stand. -/
theorem decrypt_reaches_sealed_prefix (sb : Sodium) (hsb : sb.DetachedOK) (key : Key)
    (tail : Bytes) (o : Outcome) (m : Nat → Bytes) (n : Nat → Nonce) :
    ∀ (l : List Nat), (∀ i ∈ l, (m i).length = BUFSIZE) → ∀ (fout : Bytes),
      Reaches (decrypt_step sb key BUFSIZE) ⟨⟨tail, false⟩, fout ++ (l.map m).flatten⟩ o →
      Reaches (decrypt_step sb key BUFSIZE)
        ⟨⟨(l.map (fun i => recordD sb key (n i) (m i))).flatten ++ tail, false⟩, fout⟩ o := by
  intro l
  induction l with
  | nil =>
    intro _ fout hr
    simpa using hr
  | cons i l ih =>
    intro hfull fout hr
    have hi : (m i).length = BUFSIZE := hfull i (List.mem_cons_self _ _)
    have hrec : RecD.OpensFull sb key
        ⟨(n i).val, (sb.secretbox_detached (m i) (n i).val key).2.val,
          (sb.secretbox_detached (m i) (n i).val key).1⟩ (m i) :=
      ⟨(n i).property, (sb.secretbox_detached _ _ _).2.property,
        (hsb.seal_length _ _ _).trans hi, hsb.open_seal _ _ _⟩
    have e : recordD sb key (n i) (m i)
        = RecD.bytes ⟨(n i).val, (sb.secretbox_detached (m i) (n i).val key).2.val,
          (sb.secretbox_detached (m i) (n i).val key).1⟩ := rfl
    rw [List.map_cons, List.flatten_cons, List.append_assoc, e]
    refine Reaches.of_next (decrypt_step_full sb key _ (m i) _ fout hrec hi) ?_
    apply ih (fun j hj => hfull j (List.mem_cons_of_mem _ hj))
    rw [List.map_cons, List.flatten_cons, ← List.append_assoc] at hr
    exact hr

theorem decrypt_reaches_sealed_last (sb : Sodium) (hsb : sb.DetachedOK) (key : Key)
    (n : Nonce) (m fout : Bytes) (h0 : 0 < m.length) (h1 : m.length < BUFSIZE) :
    Reaches (decrypt_step sb key BUFSIZE) ⟨⟨recordD sb key n m, false⟩, fout⟩
      ⟨fout ++ m, .success⟩ := by
  refine Reaches.of_halt ?_
  have hcl := hsb.seal_length m n.val key
  have hc0 : (sb.secretbox_detached m n.val key).1 ≠ [] := by
    intro h
    rw [h, List.length_nil] at hcl
    rw [← hcl] at h0
    exact Nat.lt_irrefl 0 h0
  have hlt : (sb.secretbox_detached m n.val key).1.length < BUFSIZE := by
    rw [hcl]
    exact h1
  have e : recordD sb key n m
      = n.val ++ ((sb.secretbox_detached m n.val key).2.val
        ++ (sb.secretbox_detached m n.val key).1) := by
    simp only [recordD, List.append_assoc]
  rw [e, decrypt_step_fields sb key _ _ _ false fout n.property
    (sb.secretbox_detached _ _ _).2.property hc0,
    List.take_of_length_le (Nat.le_of_lt hlt), hsb.open_seal]
  simp only [hlt, decide_True, Bool.or_true, if_true]
  rw [List.take_of_length_le (by rw [Nat.min_eq_right (Nat.le_of_lt hlt), hcl])]

/-- C10: Variant D does not bind a chunk to its position. For a plaintext `p` whose last
chunk is shorter than 1 MiB and not empty, and two of its full-size chunks `a` and `b`,
`encrypt` writes the records of the chunks in order; the container in which the records `a`
and `b` (nonce, tag and ciphertext together) have changed places is decrypted by `decrypt`
with the same key without error, and the output is the plaintext with the chunks `a` and `b`
exchanged. -/
theorem C10_variant_D_exchange (sb : Sodium) (hsb : sb.DetachedOK) (rnd : Nat → Nonce)
    (key : Key) (p : Bytes) (a b : Nat) (hlast : p.length % BUFSIZE ≠ 0)
    (ha : a + 1 < nchunks BUFSIZE p.length) (hb : b + 1 < nchunks BUFSIZE p.length) :
    encrypt sb rnd ⟨⟨p, false⟩, [], true, key⟩
      = some ⟨((List.range (nchunks BUFSIZE p.length)).map
          (fun i => recordD sb key (rnd i) (chunk BUFSIZE p i))).flatten, .success⟩ ∧
    decrypt sb ⟨⟨((List.range (nchunks BUFSIZE p.length)).map
          (fun i => recordD sb key (rnd (Equiv.swap a b i))
            (chunk BUFSIZE p (Equiv.swap a b i)))).flatten, false⟩, [], false, key⟩
      = some ⟨((List.range (nchunks BUFSIZE p.length)).map
          (fun i => chunk BUFSIZE p (Equiv.swap a b i))).flatten, .success⟩ ∧
    ((List.range (nchunks BUFSIZE p.length)).map (chunk BUFSIZE p)).flatten = p ∧
    (chunk BUFSIZE p a).length = BUFSIZE ∧ (chunk BUFSIZE p b).length = BUFSIZE ∧
    0 < (chunk BUFSIZE p (nchunks BUFSIZE p.length - 1)).length ∧
    (chunk BUFSIZE p (nchunks BUFSIZE p.length - 1)).length < BUFSIZE := by
  obtain ⟨k, hk⟩ : ∃ k, nchunks BUFSIZE p.length = k + 1 :=
    Nat.exists_eq_succ_of_ne_zero (Nat.pos_iff_ne_zero.mp (Nat.lt_of_le_of_lt (Nat.zero_le _) ha))
  rw [hk] at ha hb
  have hak : a < k := Nat.lt_of_succ_lt_succ ha
  have hbk : b < k := Nat.lt_of_succ_lt_succ hb
  have hlastlen := chunk_last_length BUFSIZE_pos p k hk hlast
  have hswapk : Equiv.swap a b k = k :=
    Equiv.swap_apply_of_ne_of_ne (Nat.ne_of_gt hak) (Nat.ne_of_gt hbk)
  refine ⟨?_, ?_, chunks_flatten BUFSIZE_pos _ p rfl,
    chunk_full_of_lt BUFSIZE_pos p k a hk hak, chunk_full_of_lt BUFSIZE_pos p k b hk hbk, ?_⟩
  · have := encrypt_records sb hsb rnd key p []
    rw [List.nil_append] at this
    exact this
  · refine decrypt_eq sb key _ _ _ _ ?_
    rw [hk, List.range_succ, List.map_append, List.map_append, List.flatten_append,
      List.flatten_append, List.map_singleton, List.map_singleton, List.flatten_singleton,
      List.flatten_singleton, hswapk]
    refine decrypt_reaches_sealed_prefix sb hsb key _ _
      (fun i => chunk BUFSIZE p (Equiv.swap a b i)) (fun i => rnd (Equiv.swap a b i))
      (List.range k) ?_ [] ?_
    · intro i hi
      exact chunk_full_of_lt BUFSIZE_pos p k _ hk (swap_lt hak hbk (List.mem_range.mp hi))
    · exact decrypt_reaches_sealed_last sb hsb key (rnd k) (chunk BUFSIZE p k) _
        hlastlen.1 hlastlen.2
  · rw [hk, Nat.add_sub_cancel]
    exact hlastlen

/-- Witness of C10: a plaintext of two full chunks and one more byte; the two full records
change places. -/
theorem C10_variant_D_exchange_witness :
    toySodium.DetachedOK ∧
    (List.replicate (BUFSIZE + (BUFSIZE + 1)) (7 : Byte)).length % BUFSIZE ≠ 0 ∧
    0 + 1 < nchunks BUFSIZE (List.replicate (BUFSIZE + (BUFSIZE + 1)) (7 : Byte)).length ∧
    1 + 1 < nchunks BUFSIZE (List.replicate (BUFSIZE + (BUFSIZE + 1)) (7 : Byte)).length ∧
    decrypt toySodium ⟨⟨((List.range (nchunks BUFSIZE
          (List.replicate (BUFSIZE + (BUFSIZE + 1)) (7 : Byte)).length)).map
          (fun i => recordD toySodium zeroKey (countNonce (Equiv.swap 0 1 i))
            (chunk BUFSIZE (List.replicate (BUFSIZE + (BUFSIZE + 1)) 7)
              (Equiv.swap 0 1 i)))).flatten, false⟩, [], false, zeroKey⟩
      = some ⟨((List.range (nchunks BUFSIZE
          (List.replicate (BUFSIZE + (BUFSIZE + 1)) (7 : Byte)).length)).map
          (fun i => chunk BUFSIZE (List.replicate (BUFSIZE + (BUFSIZE + 1)) 7)
            (Equiv.swap 0 1 i))).flatten, .success⟩ :=
  have hn : nchunks BUFSIZE (List.replicate (BUFSIZE + (BUFSIZE + 1)) (7 : Byte)).length = 3 :=
    (congrArg (nchunks BUFSIZE) (List.length_replicate _ _)).trans
      (nchunks_two_full_one BUFSIZE_pos)
  have hm : (List.replicate (BUFSIZE + (BUFSIZE + 1)) (7 : Byte)).length % BUFSIZE ≠ 0 :=
    fun h => mod_two_full_one (by rw [BUFSIZE_eq]; omega)
      ((congrArg (fun x => x % BUFSIZE) (List.length_replicate _ _)).symm.trans h)
  have h1 : 0 + 1 < nchunks BUFSIZE
      (List.replicate (BUFSIZE + (BUFSIZE + 1)) (7 : Byte)).length := by
    rw [hn]
    decide
  have h2 : 1 + 1 < nchunks BUFSIZE
      (List.replicate (BUFSIZE + (BUFSIZE + 1)) (7 : Byte)).length := by
    rw [hn]
    decide
  ⟨toySodium_detachedOK, hm, h1, h2,
    (C10_variant_D_exchange toySodium toySodium_detachedOK countNonce zeroKey
      (List.replicate (BUFSIZE + (BUFSIZE + 1)) 7) 0 1 hm h1 h2).2.1⟩

end Ankh
